import Mathlib

/-!
The numeric triangle of `examples/basic-example/main.c`.

`main` prints the rows ` 0`, ` 0 1`, ` 0 1 2`, ... with a single outer `for` loop whose
counter `i` is advanced by a variable `step`; `step` is `1` until the row for `i == n`
has been printed and `0-1` from then on.

The embedding keeps the shape of the C text: one function for the inner `for`, one for
a pass through the body of the outer `for`, one for the outer `for` itself, and `main`.
The bound, `int n = 7` in the source, is a parameter of `mainWith`; `main` is
`mainWith` at `7`.  Loops take a fuel argument, and the theorems say how much fuel is
enough.

Arithmetic on `int` is parametrised by an `IntModel`: mathematical integers, or 32-bit
two's complement, which is what the counters of the source are.  The results hold under
both models: for the program as compiled (`n = 7`), for fixed small bounds, and for every
bound `0 ≤ n < 2^31 - 1`.  At `n = 2^31 - 1` the increment of `j` in the row for `i = n`
wraps, and the 32-bit program returns for no fuel.
-/

namespace BasicExample

/-! ## Definitions -/

/-- How the result of an arithmetic operation on `int` is stored. -/
inductive IntModel where
  /-- Mathematical integers: results are stored unchanged. -/
  | unbounded
  /-- Results are reduced into `[-2^31, 2^31)` (32-bit two's complement). -/
  | int32
  deriving DecidableEq

/-- Reduction of an integer into the range `[-2^31, 2^31)` of a 32-bit `int`. -/
def wrap32 (x : Int) : Int := (x + 2 ^ 31) % 2 ^ 32 - 2 ^ 31

/-- Stored value of an arithmetic result under the given integer model. -/
def IntModel.conv : IntModel → Int → Int
  | .unbounded, x => x
  | .int32, x => wrap32 x

/-- The value of `EXIT_SUCCESS` from `<stdlib.h>`. -/
def EXIT_SUCCESS : Int := 0

/-- Text written by the conversion `%d`: the decimal digits, with a leading `-` for a
negative value. -/
def fmtD (x : Int) : String := toString x

/-- Text written by `printf(" %d", j)`. -/
def printfInt (j : Int) : String := " " ++ fmtD j

/-- Text written by `printf("\n")`. -/
def printfNewline : String := "\n"

/-- The variables of `main` that live across iterations of the outer loop, with the text
written to standard output so far. -/
structure State where
  /-- The outer counter `i`. -/
  i : Int
  /-- The variable `step`. -/
  step : Int
  /-- Standard output so far. -/
  out : String
  deriving DecidableEq

/-- The loop `for(int j = 0; j <= i; j += 1) printf(" %d", j);`, entered with the given
value of `j`; the result is standard output after the loop. -/
def innerLoop (m : IntModel) : Nat → Int → Int → String → Option String
  | 0, _, _, _ => none
  | fuel + 1, i, j, out =>
    if j ≤ i then innerLoop m fuel i (m.conv (j + 1)) (out ++ printfInt j)
    else some out

/-- The condition `0 <= i && i <= n` of the outer loop. -/
def loopCond (n : Int) (s : State) : Bool := decide (0 ≤ s.i) && decide (s.i ≤ n)

/-- One pass through the outer loop: the inner loop, `printf("\n")`, the conditional
assignment `if(i == n) step = 0-1;`, and then the update `i += step`. -/
def loopBody (m : IntModel) (fuel : Nat) (n : Int) (s : State) : Option State :=
  match innerLoop m fuel s.i 0 s.out with
  | none => none
  | some out =>
    let step := if s.i = n then m.conv (0 - 1) else s.step
    some { i := m.conv (s.i + step), step := step, out := out ++ printfNewline }

/-- The outer loop `for(...; 0 <= i && i <= n; i += step)`, entered in state `s`; the
result is the state in which the condition fails. -/
def outerLoop (m : IntModel) : Nat → Int → State → Option State
  | 0, _, _ => none
  | fuel + 1, n, s =>
    if loopCond n s then
      match loopBody m fuel n s with
      | none => none
      | some s' => outerLoop m fuel n s'
    else some s

/-- The states in which the condition of the outer loop is evaluated, in order: the
same recursion as `outerLoop`, keeping every state instead of the last one only. -/
def outerTrace (m : IntModel) : Nat → Int → State → Option (List State)
  | 0, _, _ => none
  | fuel + 1, n, s =>
    if loopCond n s then
      match loopBody m fuel n s with
      | none => none
      | some s' => (outerTrace m fuel n s').map (s :: ·)
    else some [s]

/-- The state of `main` on entry to the outer loop: `i = 0`, `step = 1`, nothing
written. -/
def initState : State := { i := 0, step := 1, out := "" }

/-- The body of `main` with the bound `n` as a parameter: the exit status and the text
written to standard output. -/
def mainWith (m : IntModel) (fuel : Nat) (n : Int) : Option (Int × String) :=
  match outerLoop m fuel n initState with
  | none => none
  | some s => some (EXIT_SUCCESS, s.out)

/-- The program: `int n = 7;`. -/
def main (m : IntModel) (fuel : Nat) : Option (Int × String) := mainWith m fuel 7

/-! ### Counting and tracing the inner loop -/

/-- The inner loop again, counting the executions of `printf(" %d", j)` instead of
collecting their text; `count` is the number of executions so far. -/
def innerPrintfs (m : IntModel) : Nat → Int → Int → Nat → Option Nat
  | 0, _, _, _ => none
  | fuel + 1, i, j, count =>
    if j ≤ i then innerPrintfs m fuel i (m.conv (j + 1)) (count + 1)
    else some count

/-- The outer loop again, counting the executions of `printf(" %d", j)` over all of its
passes; the states are those of `outerLoop`. -/
def outerPrintfs (m : IntModel) : Nat → Int → State → Nat → Option Nat
  | 0, _, _, _ => none
  | fuel + 1, n, s, count =>
    if loopCond n s then
      match innerPrintfs m fuel s.i 0 count, loopBody m fuel n s with
      | some count', some s' => outerPrintfs m fuel n s' count'
      | _, _ => none
    else some count

/-- The number of executions of `printf(" %d", j)` in a run of `main` with bound `n`. -/
def mainPrintfs (m : IntModel) (fuel : Nat) (n : Int) : Option Nat :=
  outerPrintfs m fuel n initState 0

/-- The values of `j` in which the condition `j <= i` of the inner loop is evaluated, in
order: the same recursion as `innerLoop`; the update `j += 1` is made from every value
but the last. -/
def innerTrace (m : IntModel) : Nat → Int → Int → Option (List Int)
  | 0, _, _ => none
  | fuel + 1, i, j =>
    if j ≤ i then (innerTrace m fuel i (m.conv (j + 1))).map (j :: ·)
    else some [j]

/-! ### Reading the output -/

/-- Segments of a text cut at every occurrence of the character `sep`, without the
separator; nothing follows the last separator unless there is text after it. -/
def segments (sep : Char) : List Char → List (List Char)
  | [] => []
  | c :: cs =>
    if c = sep then [] :: segments sep cs
    else
      match segments sep cs with
      | [] => [[c]]
      | l :: ls => (c :: l) :: ls

/-- The lines of a text: the segments ended by a newline character; text after the last
newline, if any, is a line too. -/
def textLines (s : String) : List String := (segments '\n' s.data).map String.mk

/-- The fields of a line: the non-empty segments between spaces. -/
def lineFields (s : String) : List String :=
  ((segments ' ' s.data).filter fun f => !f.isEmpty).map String.mk

/-- The row lengths of a text: the number of fields on each line, in order. -/
def rowLengths (s : String) : List Nat := (textLines s).map fun l => (lineFields l).length

/-- Concatenation of a list of texts, in order. -/
def concatAll : List String → String
  | [] => ""
  | s :: ss => s ++ concatAll ss

/-! ### The rows, stated directly -/

/-- The line for counter value `i`, without its newline: a space and the decimal digits
of `j`, for `j = 0, 1, ..., i`. -/
def rowLine (i : Nat) : String :=
  concatAll ((List.range (i + 1)).map fun j => " " ++ toString j)

/-- The text of the row for counter value `i`: the line and one newline. -/
def rowText (i : Nat) : String := rowLine i ++ "\n"

/-- Counter values of an explicit ascending phase: `0, 1, ..., n`. -/
def ascending (n : Nat) : List Nat := List.range (n + 1)

/-- Counter values of an explicit descending phase: `n-1, n-2, ..., 0`. -/
def descending (n : Nat) : List Nat := (List.range n).reverse

/-- The output of a printer with two explicit phases: the rows of the ascending phase
followed by the rows of the descending phase. -/
def twoPhase (n : Nat) : String :=
  concatAll ((ascending n).map rowText) ++ concatAll ((descending n).map rowText)

/-- The pairs `(i, step)` of an ascending phase: `(0, 1), (1, 1), ..., (n, 1)`. -/
def ascendingStates (n : Nat) : List (Int × Int) :=
  (List.range (n + 1)).map fun (k : Nat) => ((k : Int), 1)

/-- The pairs `(i, step)` of a descending phase: `(n-1, -1), (n-2, -1), ..., (0, -1)`. -/
def descendingStates (n : Nat) : List (Int × Int) :=
  (List.range n).reverse.map fun (k : Nat) => ((k : Int), -1)

/-- The pair `(i, step)` of a state. -/
def State.counters (s : State) : Int × Int := (s.i, s.step)

/-- The bound `n` is one for which every counter value of the run, `-1` to `n + 1`, is
stored unchanged: any bound with mathematical integers, `n + 1 < 2^31` with 32 bits. -/
def IntModel.fits : IntModel → Int → Bool
  | .unbounded, _ => true
  | .int32, n => decide (n + 1 < 2 ^ 31)

/-! ## Lemmas -/

/-! ## Decimal digits -/

theorem digitChar_not_sep (d : Nat) (hd : d < 10) :
    Nat.digitChar d ≠ ' ' ∧ Nat.digitChar d ≠ '\n' := by
  interval_cases d <;> decide

theorem toDigitsCore_not_sep (f : Nat) :
    ∀ (k : Nat) (ds : List Char), (∀ c ∈ ds, c ≠ ' ' ∧ c ≠ '\n') →
      ∀ c ∈ Nat.toDigitsCore 10 f k ds, c ≠ ' ' ∧ c ≠ '\n' := by
  induction f with
  | zero => intro k ds h c hc; exact h c (by simpa [Nat.toDigitsCore] using hc)
  | succ f ih =>
    intro k ds h c hc
    have hd : ∀ c ∈ Nat.digitChar (k % 10) :: ds, c ≠ ' ' ∧ c ≠ '\n' := by
      intro c hc
      rcases List.mem_cons.1 hc with rfl | hc
      · exact digitChar_not_sep _ (Nat.mod_lt _ (by decide))
      · exact h c hc
    simp only [Nat.toDigitsCore] at hc
    split at hc
    · exact hd c hc
    · exact ih _ _ hd c hc

theorem toDigitsCore_ne_nil (f : Nat) :
    ∀ (k : Nat) (ds : List Char), ds ≠ [] → Nat.toDigitsCore 10 f k ds ≠ [] := by
  induction f with
  | zero => intro k ds h; simpa [Nat.toDigitsCore] using h
  | succ f ih =>
    intro k ds _
    simp only [Nat.toDigitsCore]
    split
    · simp
    · exact ih _ _ (by simp)

/-- The decimal digits of a natural number contain neither a space nor a newline. -/
theorem toString_not_sep (k : Nat) : ∀ c ∈ (toString k).data, c ≠ ' ' ∧ c ≠ '\n' := by
  intro c hc
  exact toDigitsCore_not_sep (k + 1) k [] (by simp) c hc

/-- The decimal digits of a natural number are not empty. -/
theorem toString_data_ne_nil (k : Nat) : (toString k).data ≠ [] := by
  show Nat.toDigitsCore 10 (k + 1) k [] ≠ []
  simp only [Nat.toDigitsCore]
  split
  · simp
  · exact toDigitsCore_ne_nil _ _ _ (by simp)

theorem fmtD_natCast (k : Nat) : fmtD (k : Int) = toString k := rfl

/-! ## Segments -/

theorem segments_append_sep (sep : Char) (w rest : List Char) (hw : ∀ c ∈ w, c ≠ sep) :
    segments sep (w ++ sep :: rest) = w :: segments sep rest := by
  induction w with
  | nil => simp [segments]
  | cons c w ih =>
    have hc : c ≠ sep := hw c (by simp)
    have := ih (fun c hc => hw c (by simp [hc]))
    simp [segments, hc, this]

theorem segments_no_sep (sep : Char) (w : List Char) (hw : ∀ c ∈ w, c ≠ sep) (hne : w ≠ []) :
    segments sep w = [w] := by
  induction w with
  | nil => exact absurd rfl hne
  | cons c w ih =>
    have hc : c ≠ sep := hw c (by simp)
    cases w with
    | nil => simp [segments, hc]
    | cons d w =>
      have := ih (fun c hc => hw c (by simp [hc])) (by simp)
      simp [segments, hc] at this ⊢
      simp [this]

theorem concatAll_append (a b : List String) :
    concatAll (a ++ b) = concatAll a ++ concatAll b := by
  induction a with
  | nil => simp [concatAll]
  | cons s a ih => simp [concatAll, ih, String.append_assoc]

/-! ## The loops -/

theorem conv_of_fits {m : IntModel} {n : Int} (h : m.fits n = true) (x : Int)
    (h1 : -1 ≤ x) (h2 : x ≤ n + 1) : m.conv x = x := by
  cases m with
  | unbounded => rfl
  | int32 =>
    have hn : n + 1 < 2 ^ 31 := by simpa [IntModel.fits] using h
    simp only [IntModel.conv, wrap32]
    have : (x + 2 ^ 31) % 2 ^ 32 = x + 2 ^ 31 :=
      Int.emod_eq_of_lt (by omega) (by omega)
    omega

theorem fits_unbounded (n : Int) : IntModel.unbounded.fits n = true := rfl

theorem fits_mono {m : IntModel} {n k : Int} (h : m.fits n = true) (hk : k ≤ n) :
    m.fits k = true := by
  cases m with
  | unbounded => rfl
  | int32 =>
    have hn : n + 1 < 2 ^ 31 := by simpa [IntModel.fits] using h
    simp only [IntModel.fits, decide_eq_true_eq]
    omega

/-- The inner loop entered with `j = a`, `a ≤ i + 1`, writes the numbers `a, ..., i`. -/
theorem innerLoop_eq (m : IntModel) (i : Nat) (hm : m.fits i = true) (len : Nat) :
    ∀ (a fuel : Nat) (out : String), a + len = i + 1 → len + 1 ≤ fuel →
      innerLoop m fuel i a out
        = some (out ++ concatAll ((List.range' a len).map fun j => " " ++ toString j)) := by
  induction len with
  | zero =>
    intro a fuel out ha hf
    obtain ⟨f, rfl⟩ : ∃ f, fuel = f + 1 := ⟨fuel - 1, by omega⟩
    have : ¬ ((a : Int) ≤ i) := by omega
    simp [innerLoop, this, concatAll]
  | succ len ih =>
    intro a fuel out ha hf
    obtain ⟨f, rfl⟩ : ∃ f, fuel = f + 1 := ⟨fuel - 1, by omega⟩
    have hle : (a : Int) ≤ i := by omega
    have hconv : m.conv ((a : Int) + 1) = ((a + 1 : Nat) : Int) := by
      rw [conv_of_fits hm _ (by omega) (by omega)]; simp
    simp only [innerLoop, hle, if_true, hconv]
    rw [ih (a + 1) f _ (by omega) (by omega)]
    simp [List.range', concatAll, printfInt, fmtD_natCast, String.append_assoc]

theorem string_empty_append (s : String) : "" ++ s = s := by
  apply String.ext; simp

/-- One pass through the outer loop at a counter value `0 ≤ i`: the row for `i` is
written, `step` becomes `-1` when `i = n`, and `i` moves by the new `step`. -/
theorem loopBody_eq (m : IntModel) (n : Int) (i : Nat) (step : Int) (out : String)
    (fuel : Nat) (hm : m.fits i = true) (hf : i + 2 ≤ fuel) :
    loopBody m fuel n ⟨i, step, out⟩
      = some ⟨m.conv ((i : Int) + if (i : Int) = n then m.conv (0 - 1) else step),
              if (i : Int) = n then m.conv (0 - 1) else step,
              out ++ rowText i⟩ := by
  have h := innerLoop_eq m i hm (i + 1) 0 fuel out (by omega) (by omega)
  simp only [loopBody, Nat.cast_zero] at h ⊢
  rw [h]
  simp [rowText, rowLine, printfNewline, List.range_eq_range', String.append_assoc]

/-- The descending phase entered at `i = k - 1` with `step = -1`. -/
theorem outerLoop_descending (m : IntModel) (n : Int) (hm : m.fits n = true) (k : Nat) :
    ∀ (fuel : Nat) (out : String), (k : Int) ≤ n → k + 2 ≤ fuel →
      outerLoop m fuel n ⟨(k : Int) - 1, -1, out⟩
        = some ⟨-1, -1, out ++ concatAll ((descending k).map rowText)⟩ := by
  induction k with
  | zero =>
    intro fuel out _ hf
    obtain ⟨f, rfl⟩ : ∃ f, fuel = f + 1 := ⟨fuel - 1, by omega⟩
    simp [outerLoop, loopCond, descending, concatAll]
  | succ k ih =>
    intro fuel out hk hf
    obtain ⟨f, rfl⟩ : ∃ f, fuel = f + 1 := ⟨fuel - 1, by omega⟩
    have hi : ((k + 1 : Nat) : Int) - 1 = (k : Int) := by simp
    have hc : loopCond n ⟨(k : Int), -1, out⟩ = true := by
      simp only [loopCond, Bool.and_eq_true, decide_eq_true_eq]; omega
    have hne : ¬ ((k : Int) = n) := by omega
    have hconv : m.conv ((k : Int) + -1) = (k : Int) - 1 := by
      rw [conv_of_fits hm _ (by omega) (by omega)]; ring
    rw [hi]
    simp only [outerLoop, hc, if_true]
    rw [loopBody_eq m n k (-1) out f (fits_mono hm (by omega)) (by omega)]
    simp only [hne, if_false, hconv]
    rw [ih f _ (by omega) (by omega)]
    simp [descending, List.range_succ, concatAll, String.append_assoc]

/-- The ascending phase entered at `i` with `step = 1`, `i ≤ n`: the rows `i, ..., n`
and then the whole descending phase. -/
theorem outerLoop_ascending (m : IntModel) (n : Nat) (hm : m.fits n = true) (d : Nat) :
    ∀ (i fuel : Nat) (out : String), i + d = n → 2 * n + 3 ≤ fuel + i →
      outerLoop m fuel n ⟨i, 1, out⟩
        = some ⟨-1, -1, out ++ concatAll ((List.range' i (d + 1)).map rowText)
                  ++ concatAll ((descending n).map rowText)⟩ := by
  induction d with
  | zero =>
    intro i fuel out hi hf
    obtain ⟨f, rfl⟩ : ∃ f, fuel = f + 1 := ⟨fuel - 1, by omega⟩
    obtain rfl : i = n := by omega
    have hc : loopCond (i : Int) ⟨(i : Int), 1, out⟩ = true := by
      simp [loopCond]
    have h1 : m.conv (0 - 1) = -1 := conv_of_fits hm _ (by omega) (by omega)
    have hconv : m.conv ((i : Int) + -1) = (i : Int) - 1 := by
      rw [conv_of_fits hm _ (by omega) (by omega)]; ring
    simp only [outerLoop, hc, if_true]
    rw [loopBody_eq m i i 1 out f hm (by omega)]
    simp only [if_true, h1, hconv]
    rw [outerLoop_descending m i hm i f _ le_rfl (by omega)]
    simp [List.range', concatAll]
  | succ d ih =>
    intro i fuel out hi hf
    obtain ⟨f, rfl⟩ : ∃ f, fuel = f + 1 := ⟨fuel - 1, by omega⟩
    have hc : loopCond (n : Int) ⟨(i : Int), 1, out⟩ = true := by
      simp only [loopCond, Bool.and_eq_true, decide_eq_true_eq]; omega
    have hne : ¬ ((i : Int) = (n : Int)) := by omega
    have hconv : m.conv ((i : Int) + 1) = ((i + 1 : Nat) : Int) := by
      rw [conv_of_fits hm _ (by omega) (by omega)]; simp
    simp only [outerLoop, hc, if_true]
    rw [loopBody_eq m n i 1 out f (fits_mono hm (by omega)) (by omega)]
    simp only [hne, if_false, hconv]
    rw [ih (i + 1) f _ (by omega) (by omega)]
    simp [List.range', concatAll, String.append_assoc]

/-- With a bound `n ≥ 0` and fuel `2n + 3`, `main` returns `EXIT_SUCCESS` and has written
the rows of the two explicit phases. -/
theorem mainWith_eq (m : IntModel) (n : Nat) (hm : m.fits n = true) (fuel : Nat)
    (hf : 2 * n + 3 ≤ fuel) :
    mainWith m fuel n = some (EXIT_SUCCESS, twoPhase n) := by
  have h := outerLoop_ascending m n hm n 0 fuel "" (by omega) (by omega)
  simp only [mainWith, initState, Nat.cast_zero] at h ⊢
  rw [h]
  simp [twoPhase, ascending, List.range_eq_range', string_empty_append]

/-! ## The states at the loop head -/

/-- The states in which the loop condition is evaluated: it holds in all of them but
the last, it fails in the last, and the last is the result of `outerLoop`. -/
theorem outerTrace_spec (m : IntModel) (n : Int) (fuel : Nat) :
    ∀ (s : State) (T : List State), outerTrace m fuel n s = some T →
      ∃ (B : List State) (e : State), T = B ++ [e] ∧ (s :: T).head? = (B ++ [e]).head? ∧
        (∀ t ∈ B, loopCond n t = true) ∧ loopCond n e = false ∧
        outerLoop m fuel n s = some e := by
  induction fuel with
  | zero => intro s T h; simp [outerTrace] at h
  | succ f ih =>
    intro s T h
    simp only [outerTrace] at h
    by_cases hc : loopCond n s = true
    · simp only [hc, if_true] at h
      cases hb : loopBody m f n s with
      | none => simp [hb] at h
      | some s' =>
        simp only [hb] at h
        cases ht : outerTrace m f n s' with
        | none => simp [ht] at h
        | some T' =>
          simp only [ht, Option.map_some', Option.some.injEq] at h
          obtain ⟨B, e, hT, _, hB, he, hl⟩ := ih s' T' ht
          refine ⟨s :: B, e, by simp [← h, hT], by simp, ?_, he, ?_⟩
          · intro t ht
            rcases List.mem_cons.1 ht with rfl | ht
            · exact hc
            · exact hB t ht
          · simp [outerLoop, hc, hb, hl]
    · simp only [hc] at h
      simp only [Bool.false_eq_true, if_false, Option.some.injEq] at h
      refine ⟨[], s, by simp [← h], by simp, by simp, by simpa using hc, ?_⟩
      simp [outerLoop, hc]

theorem map_counters_cons (o : Option (List State)) (s : State) (L : List (Int × Int))
    (h : o.map (List.map State.counters) = some L) :
    (o.map (s :: ·)).map (List.map State.counters) = some (s.counters :: L) := by
  cases o with
  | none => simp at h
  | some T => simpa using h

/-- The pairs `(i, step)` seen by the loop condition in the descending phase. -/
theorem outerTrace_descending (m : IntModel) (n : Int) (hm : m.fits n = true) (k : Nat) :
    ∀ (fuel : Nat) (out : String), (k : Int) ≤ n → k + 2 ≤ fuel →
      (outerTrace m fuel n ⟨(k : Int) - 1, -1, out⟩).map (List.map State.counters)
        = some (descendingStates k ++ [(-1, -1)]) := by
  induction k with
  | zero =>
    intro fuel out _ hf
    obtain ⟨f, rfl⟩ : ∃ f, fuel = f + 1 := ⟨fuel - 1, by omega⟩
    simp [outerTrace, loopCond, descendingStates, State.counters]
  | succ k ih =>
    intro fuel out hk hf
    obtain ⟨f, rfl⟩ : ∃ f, fuel = f + 1 := ⟨fuel - 1, by omega⟩
    have hi : ((k + 1 : Nat) : Int) - 1 = (k : Int) := by simp
    have hc : loopCond n ⟨(k : Int), -1, out⟩ = true := by
      simp only [loopCond, Bool.and_eq_true, decide_eq_true_eq]; omega
    have hne : ¬ ((k : Int) = n) := by omega
    have hconv : m.conv ((k : Int) + -1) = (k : Int) - 1 := by
      rw [conv_of_fits hm _ (by omega) (by omega)]; ring
    rw [hi]
    simp only [outerTrace, hc, if_true]
    rw [loopBody_eq m n k (-1) out f (fits_mono hm (by omega)) (by omega)]
    simp only [hne, if_false, hconv]
    rw [map_counters_cons _ _ _ (ih f (out ++ rowText k) (by omega) (by omega))]
    simp [descendingStates, State.counters, List.range_succ]

/-- The pairs `(i, step)` seen by the loop condition from the ascending phase on. -/
theorem outerTrace_ascending (m : IntModel) (n : Nat) (hm : m.fits n = true) (d : Nat) :
    ∀ (i fuel : Nat) (out : String), i + d = n → 2 * n + 3 ≤ fuel + i →
      (outerTrace m fuel n ⟨i, 1, out⟩).map (List.map State.counters)
        = some ((List.range' i (d + 1)).map (fun (k : Nat) => ((k : Int), (1 : Int)))
                  ++ descendingStates n ++ [(-1, -1)]) := by
  induction d with
  | zero =>
    intro i fuel out hi hf
    obtain ⟨f, rfl⟩ : ∃ f, fuel = f + 1 := ⟨fuel - 1, by omega⟩
    obtain rfl : i = n := by omega
    have hc : loopCond (i : Int) ⟨(i : Int), 1, out⟩ = true := by
      simp [loopCond]
    have h1 : m.conv (0 - 1) = -1 := conv_of_fits hm _ (by omega) (by omega)
    have hconv : m.conv ((i : Int) + -1) = (i : Int) - 1 := by
      rw [conv_of_fits hm _ (by omega) (by omega)]; ring
    simp only [outerTrace, hc, if_true]
    rw [loopBody_eq m i i 1 out f hm (by omega)]
    simp only [if_true, h1, hconv]
    rw [map_counters_cons _ _ _
      (outerTrace_descending m i hm i f (out ++ rowText i) le_rfl (by omega))]
    simp [List.range', State.counters]
  | succ d ih =>
    intro i fuel out hi hf
    obtain ⟨f, rfl⟩ : ∃ f, fuel = f + 1 := ⟨fuel - 1, by omega⟩
    have hc : loopCond (n : Int) ⟨(i : Int), 1, out⟩ = true := by
      simp only [loopCond, Bool.and_eq_true, decide_eq_true_eq]; omega
    have hne : ¬ ((i : Int) = (n : Int)) := by omega
    have hconv : m.conv ((i : Int) + 1) = ((i + 1 : Nat) : Int) := by
      rw [conv_of_fits hm _ (by omega) (by omega)]; simp
    simp only [outerTrace, hc, if_true]
    rw [loopBody_eq m n i 1 out f (fits_mono hm (by omega)) (by omega)]
    simp only [hne, if_false, hconv]
    rw [map_counters_cons _ _ _ (ih (i + 1) f (out ++ rowText i) (by omega) (by omega))]
    simp [List.range', State.counters]

/-- The pairs `(i, step)` seen by the loop condition over the whole run. -/
theorem outerTrace_counters (m : IntModel) (n : Nat) (hm : m.fits n = true) (fuel : Nat)
    (hf : 2 * n + 3 ≤ fuel) :
    (outerTrace m fuel n initState).map (List.map State.counters)
      = some (ascendingStates n ++ descendingStates n ++ [(-1, -1)]) := by
  have h := outerTrace_ascending m n hm n 0 fuel "" (by omega) (by omega)
  simp only [initState, Nat.cast_zero] at h ⊢
  rw [h]
  simp [ascendingStates, List.range_eq_range']

/-! ## Lines and fields of the rows -/

/-- The text of the numbers in `js`, each after one space. -/
theorem numbers_data_cons (j : Nat) (js : List Nat) :
    (concatAll ((j :: js).map fun j => " " ++ toString j)).data
      = ' ' :: ((toString j).data
          ++ (concatAll (js.map fun j => " " ++ toString j)).data) := by
  simp [concatAll, String.data_append]

theorem numbers_no_newline (js : List Nat) :
    ∀ c ∈ (concatAll (js.map fun j => " " ++ toString j)).data, c ≠ '\n' := by
  induction js with
  | nil => simp [concatAll]
  | cons j js ih =>
    intro c hc
    rw [numbers_data_cons] at hc
    rcases List.mem_cons.1 hc with rfl | hc
    · decide
    · rcases List.mem_append.1 hc with hc | hc
      · exact (toString_not_sep j c hc).2
      · exact ih c hc

theorem numbers_segments (js : List Nat) :
    segments ' ' (concatAll (js.map fun j => " " ++ toString j)).data
      = if js = [] then [] else [] :: js.map fun j => (toString j).data := by
  induction js with
  | nil => simp [concatAll, segments]
  | cons j js ih =>
    rw [numbers_data_cons]
    have hw : ∀ c ∈ (toString j).data, c ≠ ' ' := fun c hc => (toString_not_sep j c hc).1
    cases js with
    | nil =>
      simp [concatAll, segments, segments_no_sep ' ' _ hw (toString_data_ne_nil j)]
    | cons j' js =>
      rw [numbers_data_cons] at ih ⊢
      rw [segments, if_pos rfl, segments_append_sep ' ' _ _ hw]
      simp only [segments, if_true, if_neg (List.cons_ne_nil _ _), List.cons.injEq,
        true_and] at ih
      simp [ih]

/-- A row line has no newline in it. -/
theorem rowLine_no_newline (i : Nat) : ∀ c ∈ (rowLine i).data, c ≠ '\n' :=
  numbers_no_newline _

/-- The fields of the line for `i` are the decimal digits of `0, 1, ..., i`. -/
theorem lineFields_rowLine (i : Nat) :
    lineFields (rowLine i) = (List.range (i + 1)).map fun j => toString j := by
  have hne : List.range (i + 1) ≠ [] := by simp
  simp only [lineFields, rowLine, numbers_segments, if_neg hne]
  rw [List.filter_cons_of_neg (by simp)]
  rw [List.filter_eq_self.2]
  · simp [List.map_map, Function.comp_def]
  · intro f hf
    obtain ⟨j, _, rfl⟩ := List.mem_map.1 hf
    simpa using toString_data_ne_nil j

/-- The lines of a sequence of rows are the row lines. -/
theorem segments_rows (l : List Nat) :
    segments '\n' (concatAll (l.map rowText)).data = l.map fun i => (rowLine i).data := by
  induction l with
  | nil => simp [concatAll, segments]
  | cons i l ih =>
    have : (concatAll ((i :: l).map rowText)).data
        = (rowLine i).data ++ '\n' :: (concatAll (l.map rowText)).data := by
      simp [concatAll, rowText, String.data_append]
    rw [this, segments_append_sep '\n' _ _ (rowLine_no_newline i), ih]
    simp

theorem textLines_rows (l : List Nat) :
    textLines (concatAll (l.map rowText)) = l.map rowLine := by
  simp [textLines, segments_rows, List.map_map, Function.comp_def]

theorem twoPhase_eq (n : Nat) :
    twoPhase n = concatAll ((ascending n ++ descending n).map rowText) := by
  simp [twoPhase, concatAll_append]

/-- The lines of the two-phase output: one row line for each counter value. -/
theorem textLines_twoPhase (n : Nat) :
    textLines (twoPhase n) = (ascending n ++ descending n).map rowLine := by
  rw [twoPhase_eq, textLines_rows]

/-- The row lengths of the two-phase output: `1, ..., n+1, n, ..., 1`. -/
theorem rowLengths_twoPhase (n : Nat) :
    rowLengths (twoPhase n) = List.range' 1 (n + 1) ++ (List.range' 1 n).reverse := by
  simp only [rowLengths, textLines_twoPhase, List.map_map, Function.comp_def,
    lineFields_rowLine, List.length_map, List.length_range, List.map_append]
  have h : ∀ k, List.map (fun x => x + 1) (List.range' 0 k) = List.range' 1 k := by
    intro k
    have := List.map_add_range' 1 0 k 1
    simpa [Nat.add_comm] using this
  simp [ascending, descending, List.range_eq_range', List.map_reverse, h]

/-! ## 32-bit counters -/

/-- The values of `j` seen by the condition of the inner loop entered with `j = a`,
`a ≤ i + 1`: the numbers `a, ..., i + 1`. -/
theorem innerTrace_eq (m : IntModel) (i : Nat) (hm : m.fits i = true) (len : Nat) :
    ∀ (a fuel : Nat), a + len = i + 1 → len + 1 ≤ fuel →
      innerTrace m fuel i a
        = some ((List.range' a (len + 1)).map fun (k : Nat) => (k : Int)) := by
  induction len with
  | zero =>
    intro a fuel ha hf
    obtain ⟨f, rfl⟩ : ∃ f, fuel = f + 1 := ⟨fuel - 1, by omega⟩
    have : ¬ ((a : Int) ≤ i) := by omega
    simp [innerTrace, this, List.range']
  | succ len ih =>
    intro a fuel ha hf
    obtain ⟨f, rfl⟩ : ∃ f, fuel = f + 1 := ⟨fuel - 1, by omega⟩
    have hle : (a : Int) ≤ i := by omega
    have hconv : m.conv ((a : Int) + 1) = ((a + 1 : Nat) : Int) := by
      rw [conv_of_fits hm _ (by omega) (by omega)]; simp
    simp only [innerTrace, hle, if_true, hconv]
    rw [ih (a + 1) f (by omega) (by omega)]
    rw [List.range'_succ a (len + 1)]
    rfl

theorem wrap32_le (x : Int) : wrap32 x ≤ 2 ^ 31 - 1 := by
  unfold wrap32
  omega

theorem wrap32_eq (x : Int) (h1 : -2 ^ 31 ≤ x) (h2 : x < 2 ^ 31) : wrap32 x = x := by
  unfold wrap32
  omega

/-- With 32 bits, the inner loop of the row for `i = 2^31 - 1` does not return. -/
theorem innerLoop_int32_none (fuel : Nat) :
    ∀ (j : Int) (out : String), j ≤ 2 ^ 31 - 1 →
      innerLoop .int32 fuel (2 ^ 31 - 1) j out = none := by
  induction fuel with
  | zero => intro j out _; rfl
  | succ f ih =>
    intro j out hj
    simp only [innerLoop, hj, if_true]
    exact ih _ _ (wrap32_le _)

/-- With 32 bits and the bound `2^31 - 1`, the outer loop does not return from any state
of the ascending phase. -/
theorem outerLoop_int32_none (fuel : Nat) :
    ∀ (i : Int) (out : String), 0 ≤ i → i ≤ 2 ^ 31 - 1 →
      outerLoop .int32 fuel (2 ^ 31 - 1) ⟨i, 1, out⟩ = none := by
  induction fuel with
  | zero => intro i out _ _; rfl
  | succ f ih =>
    intro i out h0 h1
    have hc : loopCond (2 ^ 31 - 1) ⟨i, 1, out⟩ = true := by
      simp only [loopCond, Bool.and_eq_true, decide_eq_true_eq]; exact ⟨h0, h1⟩
    simp only [outerLoop, hc, if_true, loopBody]
    cases hin : innerLoop .int32 f i 0 out with
    | none => rfl
    | some o =>
      by_cases hi : i = 2 ^ 31 - 1
      · rw [hi, innerLoop_int32_none f 0 out (by omega)] at hin
        exact Option.noConfusion hin
      · have hw : wrap32 (i + 1) = i + 1 := wrap32_eq _ (by omega) (by omega)
        simp only [if_neg hi, IntModel.conv, hw]
        exact ih _ _ (by omega) (by omega)

theorem mainWith_int32_none (fuel : Nat) : mainWith .int32 fuel (2 ^ 31 - 1) = none := by
  simp only [mainWith, initState, outerLoop_int32_none fuel 0 "" (by omega) (by omega)]

/-- Below the bound `2^31 - 1` both integer models store every counter value of the run
unchanged. -/
theorem fits_of_lt (m : IntModel) (n : Int) (h : n < 2 ^ 31 - 1) : m.fits n = true := by
  cases m with
  | unbounded => rfl
  | int32 =>
    simp only [IntModel.fits, decide_eq_true_eq]
    omega

theorem conv_of_int_range (m : IntModel) (x : Int) (h1 : -2 ^ 31 ≤ x) (h2 : x < 2 ^ 31) :
    m.conv x = x := by
  cases m with
  | unbounded => rfl
  | int32 => exact wrap32_eq x h1 h2

/-- Under either integer model the inner loop returns from every entry state with
`i < 2^31 - 1` and `j` an `int`: `i + 1 - j` passes are left when `j ≤ i`, none
otherwise. -/
theorem innerLoop_returns (m : IntModel) (d : Nat) :
    ∀ (i j : Int) (out : String) (fuel : Nat), -2 ^ 31 ≤ j → i < 2 ^ 31 - 1 →
      (i + 1 - j).toNat = d → d + 1 ≤ fuel →
      ∃ out', innerLoop m fuel i j out = some out' := by
  induction d with
  | zero =>
    intro i j out fuel _ _ hd hf
    obtain ⟨f, rfl⟩ : ∃ f, fuel = f + 1 := ⟨fuel - 1, by omega⟩
    have : ¬ (j ≤ i) := by omega
    exact ⟨out, by simp [innerLoop, this]⟩
  | succ d ih =>
    intro i j out fuel hj hi hd hf
    obtain ⟨f, rfl⟩ : ∃ f, fuel = f + 1 := ⟨fuel - 1, by omega⟩
    have hle : j ≤ i := by omega
    have hconv : m.conv (j + 1) = j + 1 := conv_of_int_range m _ (by omega) (by omega)
    obtain ⟨out', h⟩ := ih i (j + 1) (out ++ printfInt j) f (by omega) hi (by omega)
      (by omega)
    exact ⟨out', by simp [innerLoop, hle, hconv, h]⟩

/-- The states of the whole run, for a bound `n ≥ 0` that the model fits. -/
theorem outerTrace_run_fits (m : IntModel) (n : Nat) (hm : m.fits n = true) (fuel : Nat)
    (hf : 2 * n + 3 ≤ fuel) :
    ∃ T, outerTrace m fuel n initState = some T ∧
      T.map State.counters = ascendingStates n ++ descendingStates n ++ [(-1, -1)] := by
  have h := outerTrace_counters m n hm fuel hf
  cases ht : outerTrace m fuel n initState with
  | none => simp [ht] at h
  | some T => exact ⟨T, rfl, by simpa [ht] using h⟩

/-- With 32 bits, the pass for `i = 2^31 - 1` does not return. -/
theorem loopBody_int32_none (fuel : Nat) (n step : Int) (out : String) :
    loopBody .int32 fuel n ⟨2 ^ 31 - 1, step, out⟩ = none := by
  simp only [loopBody, innerLoop_int32_none fuel 0 out (by omega)]

/-- With 32 bits and the bound `2^31 - 1`, no list of loop-head states is returned. -/
theorem outerTrace_int32_none (fuel : Nat) :
    outerTrace .int32 fuel (2 ^ 31 - 1) initState = none := by
  cases h : outerTrace .int32 fuel (2 ^ 31 - 1) initState with
  | none => rfl
  | some T =>
    obtain ⟨_, e, _, _, _, _, hl⟩ := outerTrace_spec _ _ _ _ _ h
    have hn : outerLoop .int32 fuel (2 ^ 31 - 1) initState = none :=
      outerLoop_int32_none fuel 0 "" (by omega) (by omega)
    rw [hn] at hl
    exact Option.noConfusion hl

/-- With 32 bits and the bound `2^31 - 1`, the count of the executions of `printf` is
not returned from any state of the ascending phase. -/
theorem outerPrintfs_int32_none (fuel : Nat) :
    ∀ (i : Int) (out : String) (count : Nat), 0 ≤ i → i ≤ 2 ^ 31 - 1 →
      outerPrintfs .int32 fuel (2 ^ 31 - 1) ⟨i, 1, out⟩ count = none := by
  induction fuel with
  | zero => intro i out count _ _; rfl
  | succ f ih =>
    intro i out count h0 h1
    have hc : loopCond (2 ^ 31 - 1) ⟨i, 1, out⟩ = true := by
      simp only [loopCond, Bool.and_eq_true, decide_eq_true_eq]; exact ⟨h0, h1⟩
    simp only [outerPrintfs, hc, if_true]
    by_cases hi : i = 2 ^ 31 - 1
    · rw [hi, loopBody_int32_none]
      cases innerPrintfs .int32 f (2 ^ 31 - 1) 0 count <;> rfl
    · cases hp : innerPrintfs .int32 f i 0 count with
      | none => rfl
      | some c =>
        simp only [loopBody]
        cases hin : innerLoop .int32 f i 0 out with
        | none => rfl
        | some o =>
          have hw : wrap32 (i + 1) = i + 1 := wrap32_eq _ (by omega) (by omega)
          simp only [if_neg hi, IntModel.conv, hw]
          exact ih _ _ _ (by omega) (by omega)

theorem mainPrintfs_int32_none (fuel : Nat) : mainPrintfs .int32 fuel (2 ^ 31 - 1) = none := by
  simp only [mainPrintfs, initState,
    outerPrintfs_int32_none fuel 0 "" 0 (by omega) (by omega)]

/-! ## The claims -/

theorem rowLine_getLast (i : Nat) : (rowLine i).data.getLast? ≠ some ' ' := by
  intro h
  have hd : (rowLine i).data
      = ((concatAll ((List.range i).map fun j => " " ++ toString j)).data ++ [' '])
          ++ (toString i).data := by
    simp [rowLine, List.range_succ, concatAll_append, concatAll, String.data_append]
  rw [hd, List.getLast?_append_of_ne_nil _ (toString_data_ne_nil i)] at h
  exact (toString_not_sep i ' ' (List.mem_of_getLast?_eq_some h)).1 rfl

/-- C1, as stated, fails: the bound `n = 2^31 - 1` is not negative, yet with the `int`
counters of the source the program returns for no fuel, so it never has written the rows
of the two phases. -/
theorem C1_counterexample :
    (0 : Int) ≤ 2 ^ 31 - 1 ∧
    ∀ fuel : Nat,
      mainWith .int32 fuel (2 ^ 31 - 1) = none ∧
      mainWith .int32 fuel (2 ^ 31 - 1)
        ≠ some (EXIT_SUCCESS, twoPhase ((2 : Int) ^ 31 - 1).toNat) := by
  refine ⟨by decide, fun fuel => ⟨mainWith_int32_none fuel, ?_⟩⟩
  rw [mainWith_int32_none fuel]
  exact fun h => Option.noConfusion h

/-- C1, amended: for every bound `0 ≤ n < 2^31 - 1`, under either integer model, the
program with its single signed-step loop returns after writing exactly the output of
the printer with an explicit ascending phase and an explicit descending phase; the lines
of that output are the row lines for `i = 0, 1, ..., n` followed by those for
`i = n-1, ..., 0`, which makes `2n + 1` lines. -/
theorem C1_single_loop_is_two_phases (m : IntModel) (n : Int) (fuel : Nat) (hn : 0 ≤ n)
    (hlt : n < 2 ^ 31 - 1) (hfuel : 2 * n.toNat + 3 ≤ fuel) :
    mainWith m fuel n = some (EXIT_SUCCESS, twoPhase n.toNat) ∧
    textLines (twoPhase n.toNat)
      = (List.range (n.toNat + 1) ++ (List.range n.toNat).reverse).map rowLine ∧
    (textLines (twoPhase n.toNat)).length = 2 * n.toNat + 1 := by
  have hm := fits_of_lt m n hlt
  obtain ⟨N, rfl⟩ := Int.eq_ofNat_of_zero_le hn
  simp only [Int.toNat_ofNat] at hfuel ⊢
  refine ⟨mainWith_eq m N hm fuel hfuel, textLines_twoPhase N, ?_⟩
  rw [textLines_twoPhase]
  simp [ascending, descending]
  omega

theorem C1_witness :
    (0 : Int) ≤ 2 ∧ (2 : Int) < 2 ^ 31 - 1 ∧ 2 * (2 : Int).toNat + 3 ≤ 7 ∧
    (mainWith .int32 7 2 = some (0, " 0\n 0 1\n 0 1 2\n 0 1\n 0\n") ∧
     textLines " 0\n 0 1\n 0 1 2\n 0 1\n 0\n" = [" 0", " 0 1", " 0 1 2", " 0 1", " 0"] ∧
     (textLines " 0\n 0 1\n 0 1 2\n 0 1\n 0\n").length = 5) :=
  ⟨by decide, by decide, by decide,
    C1_single_loop_is_two_phases .int32 2 7 (by decide) (by decide) (by decide)⟩

/-- C2, as stated, fails: with the bound `n = 2^31 - 1` the loop condition holds at
`i = 2^31 - 1`, so the body runs there, but with the `int` counters of the source the test
`j <= i` of that row cannot fail: the pass returns for no fuel, whatever was written
before, and the row is never ended by its newline. -/
theorem C2_counterexample :
    (∀ (step : Int) (out : String),
      loopCond (2 ^ 31 - 1) ⟨2 ^ 31 - 1, step, out⟩ = true) ∧
    (∀ (fuel : Nat) (step : Int) (out : String),
      loopBody .int32 fuel (2 ^ 31 - 1) ⟨2 ^ 31 - 1, step, out⟩ = none) ∧
    (∀ (fuel : Nat) (out : String),
      innerLoop .int32 fuel (2 ^ 31 - 1) 0 out = none) := by
  refine ⟨fun step out => by simp [loopCond], fun fuel step out => loopBody_int32_none fuel _ step out,
    fun fuel out => innerLoop_int32_none fuel 0 out (by omega)⟩

/-- C2, amended: whenever the body of the outer loop runs (the loop condition holds, so
`0 ≤ i ≤ n`) at a counter value `i < 2^31 - 1`, as is every counter value when
`n < 2^31 - 1`, then under either integer model the text the pass adds to the output is
the concatenation, for `j = 0, ..., i` in ascending order, of one space and the decimal
digits of `j`, followed by one newline.  The line has exactly `i + 1` fields, the numbers
`0` to `i`, it does not end in a space, and the row is one line. -/
theorem C2_row_text (m : IntModel) (n : Int) (s : State) (fuel : Nat)
    (hc : loopCond n s = true) (hlt : s.i < 2 ^ 31 - 1) (hfuel : s.i.toNat + 2 ≤ fuel) :
    (∃ s', loopBody m fuel n s = some s' ∧
      s'.out = s.out
        ++ concatAll ((List.range (s.i.toNat + 1)).map fun j => " " ++ toString j)
        ++ "\n") ∧
    rowLine s.i.toNat
      = concatAll ((List.range (s.i.toNat + 1)).map fun j => " " ++ toString j) ∧
    lineFields (rowLine s.i.toNat)
      = (List.range (s.i.toNat + 1)).map (fun j => toString j) ∧
    (lineFields (rowLine s.i.toNat)).length = s.i.toNat + 1 ∧
    (rowLine s.i.toNat).data.getLast? ≠ some ' ' ∧
    textLines (rowLine s.i.toNat ++ "\n") = [rowLine s.i.toNat] := by
  obtain ⟨i, step, out⟩ := s
  have hm : m.fits i = true := fits_of_lt m i hlt
  have h0 : 0 ≤ i := by
    simp only [loopCond, Bool.and_eq_true, decide_eq_true_eq] at hc; exact hc.1
  obtain ⟨I, rfl⟩ := Int.eq_ofNat_of_zero_le h0
  simp only [Int.toNat_ofNat] at hfuel ⊢
  refine ⟨⟨_, loopBody_eq m n I step out fuel hm hfuel, ?_⟩, rfl, lineFields_rowLine I,
    by simp [lineFields_rowLine], rowLine_getLast I, ?_⟩
  · simp [rowText, rowLine, String.append_assoc]
  · have := textLines_rows [I]
    simpa [concatAll, rowText] using this

theorem C2_witness :
    loopCond 7 ⟨2, 1, "x"⟩ = true ∧ (2 : Int) < 2 ^ 31 - 1 ∧ (2 : Int).toNat + 2 ≤ 4 ∧
    ((∃ s', loopBody .int32 4 7 ⟨2, 1, "x"⟩ = some s' ∧ s'.out = "x 0 1 2\n") ∧
     rowLine 2 = " 0 1 2" ∧
     lineFields " 0 1 2" = ["0", "1", "2"] ∧
     (lineFields " 0 1 2").length = 3 ∧
     " 0 1 2".data.getLast? ≠ some ' ' ∧
     textLines " 0 1 2\n" = [" 0 1 2"]) :=
  ⟨by decide, by decide, by decide,
    C2_row_text .int32 7 ⟨2, 1, "x"⟩ 4 (by decide) (by decide) (by decide)⟩

theorem fits_seven (m : IntModel) : m.fits ((7 : Nat) : Int) = true := by
  cases m <;> decide

theorem twoPhase_seven :
    twoPhase 7 = " 0\n 0 1\n 0 1 2\n 0 1 2 3\n 0 1 2 3 4\n 0 1 2 3 4 5\n 0 1 2 3 4 5 6\n 0 1 2 3 4 5 6 7\n 0 1 2 3 4 5 6\n 0 1 2 3 4 5\n 0 1 2 3 4\n 0 1 2 3\n 0 1 2\n 0 1\n 0\n" := by
  decide

/-- The program as compiled, `n = 7`, with fuel `17` or more: the exit status and the
whole output, under either integer model. -/
theorem main_eq (m : IntModel) (fuel : Nat) (hfuel : 17 ≤ fuel) :
    main m fuel = some (EXIT_SUCCESS, twoPhase 7) :=
  mainWith_eq m 7 (fits_seven m) fuel (by omega)

/-- C3: with the compiled-in bound `n = 7` the program returns and its output has
exactly 15 lines (under either integer model, for any fuel from `17` on). -/
theorem C3_fifteen_lines (m : IntModel) (fuel : Nat) (hfuel : 17 ≤ fuel) :
    ∃ out, main m fuel = some (EXIT_SUCCESS, out) ∧ (textLines out).length = 15 := by
  refine ⟨twoPhase 7, main_eq m fuel hfuel, ?_⟩
  rw [textLines_twoPhase]
  simp [ascending, descending]

theorem C3_witness :
    17 ≤ 17 ∧ ∃ out, main .int32 17 = some (EXIT_SUCCESS, out) ∧ (textLines out).length = 15 :=
  ⟨by decide, C3_fifteen_lines .int32 17 (by decide)⟩

/-- C4: with the bound `n = 7` the first line of the output is ` 0`, the eighth line is
` 0 1 2 3 4 5 6 7`, and the fifteenth line, which is the last, is ` 0`. -/
theorem C4_first_eighth_last_line (m : IntModel) (fuel : Nat) (hfuel : 17 ≤ fuel) :
    ∃ out, main m fuel = some (EXIT_SUCCESS, out) ∧
      (textLines out)[0]? = some " 0" ∧
      (textLines out)[7]? = some " 0 1 2 3 4 5 6 7" ∧
      (textLines out)[14]? = some " 0" ∧
      (textLines out).getLast? = some " 0" := by
  refine ⟨twoPhase 7, main_eq m fuel hfuel, ?_⟩
  rw [twoPhase_seven]
  decide

theorem C4_witness :
    17 ≤ 17 ∧ ∃ out, main .int32 17 = some (EXIT_SUCCESS, out) ∧
      (textLines out)[0]? = some " 0" ∧
      (textLines out)[7]? = some " 0 1 2 3 4 5 6 7" ∧
      (textLines out)[14]? = some " 0" ∧
      (textLines out).getLast? = some " 0" :=
  ⟨by decide, C4_first_eighth_last_line .int32 17 (by decide)⟩

/-- C5, as stated, fails: with the bound `n = 0` the program writes ` 0` and a newline
once, so the output has one line, not two. -/
theorem C5_counterexample :
    mainWith .unbounded 3 0 = some (EXIT_SUCCESS, " 0\n") ∧
    mainWith .int32 3 0 = some (EXIT_SUCCESS, " 0\n") ∧
    textLines " 0\n" = [" 0"] ∧
    ¬ ((textLines " 0\n").length = 2) ∧
    ¬ ∃ (m : IntModel) (fuel : Nat) (out : String),
        mainWith m fuel 0 = some (EXIT_SUCCESS, out) ∧ textLines out = [" 0", " 0"] := by
  refine ⟨by decide, by decide, by decide, by decide, ?_⟩
  rintro ⟨m, fuel, out, h, hl⟩
  have hfit : m.fits ((0 : Nat) : Int) = true := by cases m <;> decide
  by_cases hf : 3 ≤ fuel
  · have := mainWith_eq m 0 hfit fuel (by omega)
    simp only [Nat.cast_zero] at this
    rw [this] at h
    have ho : out = twoPhase 0 := by
      simpa using (congrArg (Option.map Prod.snd) h).symm
    rw [ho] at hl
    revert hl
    decide
  · have hnone : mainWith m fuel 0 = none := by
      have h3 : fuel = 0 ∨ fuel = 1 ∨ fuel = 2 := by omega
      rcases h3 with rfl | rfl | rfl <;> cases m <;> decide
    rw [hnone] at h
    exact Option.noConfusion h

/-- C5, amended: with the bound `n = 0` the program returns and its output has exactly
one line, reading ` 0` (under either integer model, for any fuel from `3` on). -/
theorem C5_one_line (m : IntModel) (fuel : Nat) (hfuel : 3 ≤ fuel) :
    mainWith m fuel 0 = some (EXIT_SUCCESS, " 0\n") ∧ textLines " 0\n" = [" 0"] := by
  have hfit : m.fits ((0 : Nat) : Int) = true := by cases m <;> decide
  have := mainWith_eq m 0 hfit fuel (by omega)
  simp only [Nat.cast_zero] at this
  rw [this]
  exact ⟨by decide, by decide⟩

theorem C5_witness :
    3 ≤ 3 ∧ (mainWith .int32 3 0 = some (EXIT_SUCCESS, " 0\n") ∧ textLines " 0\n" = [" 0"]) :=
  ⟨by decide, C5_one_line .int32 3 (by decide)⟩

/-- Shape of the list `1, ..., n+1, n, ..., 1`. -/
theorem triangle_shape (N : Nat) (L : List Nat)
    (hL : L = List.range' 1 (N + 1) ++ (List.range' 1 N).reverse) :
    (L.take (N + 1)).Pairwise (· < ·) ∧
    (L.drop N).Pairwise (· > ·) ∧
    L.head? = some 1 ∧
    L[N]? = some (N + 1) ∧
    L.getLast? = some 1 ∧
    (∀ k ∈ L, 1 ≤ k ∧ k ≤ N + 1) ∧
    L.count (N + 1) = 1 := by
  subst hL
  have hA : List.range' 1 (N + 1) = List.range' 1 N ++ [N + 1] := by
    rw [List.range'_1_concat, Nat.add_comm 1 N]
  refine ⟨?_, ?_, ?_, ?_, ?_, ?_, ?_⟩
  · rw [List.take_left' (by simp)]
    exact List.pairwise_lt_range' 1 (N + 1)
  · have : (List.range' 1 N ++ [N + 1] ++ (List.range' 1 N).reverse).drop N
        = (List.range' 1 (N + 1)).reverse := by
      rw [List.append_assoc, List.drop_left' (by simp), hA]
      simp
    rw [hA, this, List.pairwise_reverse]
    exact List.pairwise_lt_range' 1 (N + 1)
  · simp [List.range'_succ]
  · rw [List.getElem?_append_left (by simp)]
    simp [List.getElem?_range']
    omega
  · cases N with
    | zero => simp
    | succ K =>
      rw [List.range'_succ 1 K]
      simp
  · intro k hk
    simp only [List.mem_append, List.mem_reverse, List.mem_range'_1] at hk
    omega
  · have h1 : N + 1 ∈ List.range' 1 (N + 1) := by
      rw [List.mem_range'_1]; omega
    have h2 : N + 1 ∉ (List.range' 1 N).reverse := by
      rw [List.mem_reverse, List.mem_range'_1]; omega
    rw [List.count_append, List.count_eq_one_of_mem (List.nodup_range' 1 (N + 1)) h1,
      List.count_eq_zero_of_not_mem h2]

/-- C6, as stated, fails: the bound `n = 2^31 - 1` is not negative, yet with the `int`
counters of the source the program returns no output for any fuel, so there are no row
lengths that rise to `n + 1` and fall back to `1`. -/
theorem C6_counterexample :
    (0 : Int) ≤ 2 ^ 31 - 1 ∧
    (∀ fuel : Nat,
      (mainWith .int32 fuel (2 ^ 31 - 1)).map (fun r => rowLengths r.2) = none) ∧
    ¬ ∃ (fuel : Nat) (out : String),
        mainWith .int32 fuel (2 ^ 31 - 1) = some (EXIT_SUCCESS, out) ∧
        (rowLengths out).getLast? = some 1 := by
  refine ⟨by decide, fun fuel => by rw [mainWith_int32_none fuel]; rfl, ?_⟩
  rintro ⟨fuel, out, h, _⟩
  rw [mainWith_int32_none fuel] at h
  exact Option.noConfusion h

/-- C6, amended: for every bound `0 ≤ n < 2^31 - 1`, under either integer model, the row
lengths of the output (the number of fields on each line, in output order) are
`1, 2, ..., n+1, n, ..., 1`: strictly increasing from `1` to `n+1` over the first `n+1`
rows, strictly decreasing from `n+1` to `1` from row `n+1` on, and the greatest length
`n+1` occurs on exactly one row. -/
theorem C6_row_lengths (m : IntModel) (n : Int) (fuel : Nat) (hn : 0 ≤ n)
    (hlt : n < 2 ^ 31 - 1) (hfuel : 2 * n.toNat + 3 ≤ fuel) :
    ∃ out, mainWith m fuel n = some (EXIT_SUCCESS, out) ∧
      rowLengths out = List.range' 1 (n.toNat + 1) ++ (List.range' 1 n.toNat).reverse ∧
      ((rowLengths out).take (n.toNat + 1)).Pairwise (· < ·) ∧
      ((rowLengths out).drop n.toNat).Pairwise (· > ·) ∧
      (rowLengths out).head? = some 1 ∧
      (rowLengths out)[n.toNat]? = some (n.toNat + 1) ∧
      (rowLengths out).getLast? = some 1 ∧
      (∀ k ∈ rowLengths out, 1 ≤ k ∧ k ≤ n.toNat + 1) ∧
      (rowLengths out).count (n.toNat + 1) = 1 := by
  have hm := fits_of_lt m n hlt
  obtain ⟨N, rfl⟩ := Int.eq_ofNat_of_zero_le hn
  simp only [Int.toNat_ofNat] at hfuel ⊢
  exact ⟨twoPhase N, mainWith_eq m N hm fuel hfuel, rowLengths_twoPhase N,
    triangle_shape N _ (rowLengths_twoPhase N)⟩

theorem C6_witness :
    (0 : Int) ≤ 2 ∧ (2 : Int) < 2 ^ 31 - 1 ∧ 2 * (2 : Int).toNat + 3 ≤ 7 ∧
    ∃ out, mainWith .int32 7 2 = some (EXIT_SUCCESS, out) ∧
      rowLengths out = [1, 2, 3, 2, 1] ∧
      ((rowLengths out).take 3).Pairwise (· < ·) ∧
      ((rowLengths out).drop 2).Pairwise (· > ·) ∧
      (rowLengths out).head? = some 1 ∧
      (rowLengths out)[2]? = some 3 ∧
      (rowLengths out).getLast? = some 1 ∧
      (∀ k ∈ rowLengths out, 1 ≤ k ∧ k ≤ 3) ∧
      (rowLengths out).count 3 = 1 :=
  ⟨by decide, by decide, by decide,
    C6_row_lengths .int32 2 7 (by decide) (by decide) (by decide)⟩

/-- C7: for every negative bound `n` the loop condition fails on entry, so the body of
the outer loop never runs: the only state in which the condition is evaluated is the
initial one, nothing is written (the output has no line), and the program still returns
`EXIT_SUCCESS`, which is `0` (under either integer model, for any fuel from `1` on). -/
theorem C7_negative_bound (m : IntModel) (n : Int) (fuel : Nat) (hn : n < 0)
    (hfuel : 1 ≤ fuel) :
    loopCond n initState = false ∧
    outerTrace m fuel n initState = some [initState] ∧
    mainWith m fuel n = some (EXIT_SUCCESS, "") ∧
    textLines "" = [] ∧
    EXIT_SUCCESS = 0 := by
  obtain ⟨f, rfl⟩ : ∃ f, fuel = f + 1 := ⟨fuel - 1, by omega⟩
  have hc : loopCond n initState = false := by
    simp only [loopCond, initState, Bool.and_eq_false_iff, decide_eq_false_iff_not]
    right; omega
  refine ⟨hc, ?_, ?_, by decide, rfl⟩
  · simp [outerTrace, hc]
  · have : outerLoop m (f + 1) n initState = some initState := by
      simp [outerLoop, hc]
    simp only [mainWith, this]
    rfl

theorem C7_witness :
    (-1 : Int) < 0 ∧ 1 ≤ 1 ∧
    (loopCond (-1) initState = false ∧
     outerTrace .int32 1 (-1) initState = some [initState] ∧
     mainWith .int32 1 (-1) = some (0, "") ∧
     textLines "" = [] ∧
     EXIT_SUCCESS = 0) :=
  ⟨by decide, by decide, C7_negative_bound .int32 (-1) 1 (by decide) (by decide)⟩

/-- The inner loop returns from any entry state: `i + 1 - j` passes are left when
`j ≤ i`, none otherwise. -/
theorem innerLoop_terminates (d : Nat) :
    ∀ (i j : Int) (out : String) (fuel : Nat), (i + 1 - j).toNat = d → d + 1 ≤ fuel →
      ∃ out', innerLoop .unbounded fuel i j out = some out' := by
  induction d with
  | zero =>
    intro i j out fuel hd hf
    obtain ⟨f, rfl⟩ : ∃ f, fuel = f + 1 := ⟨fuel - 1, by omega⟩
    have : ¬ (j ≤ i) := by omega
    exact ⟨out, by simp [innerLoop, this]⟩
  | succ d ih =>
    intro i j out fuel hd hf
    obtain ⟨f, rfl⟩ : ∃ f, fuel = f + 1 := ⟨fuel - 1, by omega⟩
    have hle : j ≤ i := by omega
    obtain ⟨out', h⟩ := ih i (j + 1) (out ++ printfInt j) f (by omega) (by omega)
    exact ⟨out', by simp [innerLoop, hle, IntModel.conv, h]⟩

/-- The states of the whole run, for a bound `n ≥ 0`. -/
theorem outerTrace_run (n : Nat) (fuel : Nat) (hf : 2 * n + 3 ≤ fuel) :
    ∃ T, outerTrace .unbounded fuel n initState = some T ∧
      T.map State.counters = ascendingStates n ++ descendingStates n ++ [(-1, -1)] := by
  have h := outerTrace_counters .unbounded n rfl fuel hf
  cases ht : outerTrace .unbounded fuel n initState with
  | none => simp [ht] at h
  | some T => exact ⟨T, rfl, by simpa [ht] using h⟩

/-- C8, as stated, fails: the bound `n = 2^31 - 1` is not negative, yet with the `int`
counters of the source the computation is not total there: the inner loop of the row
for `i = n` returns for no fuel, and so do the outer loop and the program. -/
theorem C8_counterexample :
    (0 : Int) ≤ 2 ^ 31 - 1 ∧
    (∀ (fuel : Nat) (out : String), innerLoop .int32 fuel (2 ^ 31 - 1) 0 out = none) ∧
    (∀ fuel : Nat, outerLoop .int32 fuel (2 ^ 31 - 1) initState = none) ∧
    (∀ fuel : Nat, mainWith .int32 fuel (2 ^ 31 - 1) = none) :=
  ⟨by decide, fun fuel out => innerLoop_int32_none fuel 0 out (by omega),
    fun fuel => outerLoop_int32_none fuel 0 "" (by omega) (by omega),
    fun fuel => mainWith_int32_none fuel⟩

/-- C8, amended: for every bound `0 ≤ n < 2^31 - 1` the computation is total, under
either integer model.  With fuel `2n + 3` or more the program returns `EXIT_SUCCESS`,
which is `0`, always with the same output; the outer loop evaluates its condition
`2n + 2` times, that is, it makes `2n + 1` passes, in states where `step` is `1` and in
states where `step` is `-1`; and the inner loop returns from every entry state with
`i < 2^31 - 1` and `j` an `int`, once the fuel exceeds the number of passes left. -/
theorem C8_total (m : IntModel) (n : Int) (hn : 0 ≤ n) (hlt : n < 2 ^ 31 - 1) :
    (∃ out, ∀ fuel, 2 * n.toNat + 3 ≤ fuel →
      mainWith m fuel n = some (EXIT_SUCCESS, out)) ∧
    EXIT_SUCCESS = 0 ∧
    (∀ fuel, 2 * n.toNat + 3 ≤ fuel →
      ∃ T, outerTrace m fuel n initState = some T ∧
        T.length = 2 * n.toNat + 2 ∧
        (∃ s ∈ T, s.step = 1) ∧ (∃ s ∈ T, s.step = -1)) ∧
    (∀ (i j : Int) (out : String) (fuel : Nat), -2 ^ 31 ≤ j → i < 2 ^ 31 - 1 →
      (i + 1 - j).toNat + 1 ≤ fuel →
      ∃ out', innerLoop m fuel i j out = some out') := by
  have hm := fits_of_lt m n hlt
  obtain ⟨N, rfl⟩ := Int.eq_ofNat_of_zero_le hn
  simp only [Int.toNat_ofNat]
  refine ⟨⟨twoPhase N, fun fuel hf => mainWith_eq m N hm fuel hf⟩, rfl, ?_,
    fun i j out fuel hj hi hf => innerLoop_returns m _ i j out fuel hj hi rfl hf⟩
  intro fuel hf
  obtain ⟨T, hT, hc⟩ := outerTrace_run_fits m N hm fuel hf
  refine ⟨T, hT, ?_, ?_, ?_⟩
  · have := congrArg List.length hc
    simp only [List.length_map, List.length_append, ascendingStates, descendingStates,
      List.length_range, List.length_reverse, List.length_singleton] at this
    omega
  · have hmem : ((0 : Int), (1 : Int)) ∈ T.map State.counters := by
      rw [hc]
      simp only [List.mem_append, ascendingStates, List.mem_map, List.mem_range]
      exact Or.inl (Or.inl ⟨0, by omega, by simp⟩)
    obtain ⟨s, hs, he⟩ := List.mem_map.1 hmem
    exact ⟨s, hs, by simpa [State.counters] using (congrArg Prod.snd he)⟩
  · have hmem : ((-1 : Int), (-1 : Int)) ∈ T.map State.counters := by
      rw [hc]; simp
    obtain ⟨s, hs, he⟩ := List.mem_map.1 hmem
    exact ⟨s, hs, by simpa [State.counters] using (congrArg Prod.snd he)⟩

theorem C8_witness :
    (0 : Int) ≤ 2 ∧ (2 : Int) < 2 ^ 31 - 1 ∧
    ((∃ out, ∀ fuel, 2 * (2 : Int).toNat + 3 ≤ fuel →
      mainWith .int32 fuel 2 = some (EXIT_SUCCESS, out)) ∧
    EXIT_SUCCESS = 0 ∧
    (∀ fuel, 2 * (2 : Int).toNat + 3 ≤ fuel →
      ∃ T, outerTrace .int32 fuel 2 initState = some T ∧
        T.length = 2 * (2 : Int).toNat + 2 ∧
        (∃ s ∈ T, s.step = 1) ∧ (∃ s ∈ T, s.step = -1)) ∧
    (∀ (i j : Int) (out : String) (fuel : Nat), -2 ^ 31 ≤ j → i < 2 ^ 31 - 1 →
      (i + 1 - j).toNat + 1 ≤ fuel →
      ∃ out', innerLoop .int32 fuel i j out = some out')) :=
  ⟨by decide, by decide, C8_total .int32 2 (by decide) (by decide)⟩

theorem descendingStates_head (N : Nat) :
    (descendingStates N ++ [(-1, -1)])[0]? = some ((N : Int) - 1, -1) := by
  cases N with
  | zero => simp [descendingStates]
  | succ K => simp [descendingStates, List.range_succ]

/-- Shape of the list of pairs `(0,1), ..., (n,1), (n-1,-1), ..., (0,-1), (-1,-1)`. -/
theorem counters_shape (N : Nat) (P : List (Int × Int))
    (hP : P = ascendingStates N ++ descendingStates N ++ [(-1, -1)]) :
    P.head? = some (0, 1) ∧
    (∀ p ∈ P, p.2 = 1 ∨ p.2 = -1) ∧
    (P.map Prod.fst).count (N : Int) = 1 ∧
    P[N]? = some ((N : Int), 1) ∧
    P[N + 1]? = some ((N : Int) - 1, -1) ∧
    (∀ p ∈ P.take (N + 1), p.2 = 1) ∧
    (∀ p ∈ P.drop (N + 1), p.2 = -1) ∧
    P.Pairwise (fun a b => a.2 = -1 → b.2 = -1) := by
  subst hP
  have hlen : (ascendingStates N).length = N + 1 := by simp [ascendingStates]
  have hasc : ∀ p ∈ ascendingStates N, p.2 = 1 := by
    intro p hp
    obtain ⟨k, _, rfl⟩ := List.mem_map.1 hp
    rfl
  have hdesc : ∀ p ∈ descendingStates N ++ [(-1, -1)], p.2 = -1 := by
    intro p hp
    rcases List.mem_append.1 hp with hp | hp
    · obtain ⟨k, _, rfl⟩ := List.mem_map.1 hp
      rfl
    · simp only [List.mem_singleton] at hp
      rw [hp]
  have htake : (ascendingStates N ++ descendingStates N ++ [(-1, -1)]).take (N + 1)
      = ascendingStates N := by
    rw [List.append_assoc, List.take_left' hlen]
  have hdrop : (ascendingStates N ++ descendingStates N ++ [(-1, -1)]).drop (N + 1)
      = descendingStates N ++ [(-1, -1)] := by
    rw [List.append_assoc, List.drop_left' hlen]
  refine ⟨?_, ?_, ?_, ?_, ?_, ?_, ?_, ?_⟩
  · simp [ascendingStates, List.range_succ_eq_map]
  · intro p hp
    rw [List.append_assoc] at hp
    rcases List.mem_append.1 hp with hp | hp
    · exact Or.inl (hasc p hp)
    · exact Or.inr (hdesc p hp)
  · have h1 : (N : Int) ∈ (List.range (N + 1)).map (fun (k : Nat) => (k : Int)) :=
      List.mem_map.2 ⟨N, by simp, rfl⟩
    have hnd : ((List.range (N + 1)).map (fun (k : Nat) => (k : Int))).Nodup :=
      (List.nodup_range _).map Nat.cast_injective
    have h2 : (N : Int) ∉ (List.range N).reverse.map (fun (k : Nat) => (k : Int)) := by
      intro h
      obtain ⟨k, hk, he⟩ := List.mem_map.1 h
      simp only [List.mem_reverse, List.mem_range] at hk
      omega
    simp only [ascendingStates, descendingStates, List.map_append, List.map_map,
      Function.comp_def, List.map_cons, List.map_nil, List.count_append]
    rw [List.count_eq_one_of_mem hnd h1, List.count_eq_zero_of_not_mem h2]
    simp
  · rw [List.append_assoc, List.getElem?_append_left (by omega)]
    simp [ascendingStates, List.getElem?_range]
  · rw [List.append_assoc, List.getElem?_append_right (by omega), hlen, Nat.sub_self]
    exact descendingStates_head N
  · rw [htake]; exact hasc
  · rw [hdrop]; exact hdesc
  · rw [List.append_assoc, List.pairwise_append]
    refine ⟨?_, ?_, ?_⟩
    · exact List.pairwise_of_forall_mem_list
        (fun a ha _ _ h => absurd h (by rw [hasc a ha]; decide))
    · exact List.pairwise_of_forall_mem_list (fun _ _ b hb _ => hdesc b hb)
    · intro a _ b hb _
      exact hdesc b hb

/-- C9, as stated, fails: the bound `n = 2^31 - 1` is not negative, yet with the `int`
counters of the source the outer loop never gets past the row for `i = n`: for no fuel is
there a list of the states in which its condition is evaluated, and the pass that would
set `step` to `-1` does not return. -/
theorem C9_counterexample :
    (0 : Int) ≤ 2 ^ 31 - 1 ∧
    (∀ fuel : Nat, outerTrace .int32 fuel (2 ^ 31 - 1) initState = none) ∧
    (∀ (fuel : Nat) (out : String),
      loopBody .int32 fuel (2 ^ 31 - 1) ⟨2 ^ 31 - 1, 1, out⟩ = none) :=
  ⟨by decide, fun fuel => outerTrace_int32_none fuel,
    fun fuel out => loopBody_int32_none fuel _ 1 out⟩

/-- C9, amended: for every bound `0 ≤ n < 2^31 - 1`, under either integer model, over the
states `(i, step)` in which the outer loop evaluates its condition: `step` is `1` in the
first state; it is `1` or `-1` in every state; exactly one state has `i = n`, the state
number `n` (counting from zero), where `step` is still `1`, and the pass made from it
sets `step` to `-1`; `step` is `1` in all states up to that one and `-1` in all later
ones, so once `-1` it is never `1` again. -/
theorem C9_step_flips_once (m : IntModel) (n : Int) (fuel : Nat) (hn : 0 ≤ n)
    (hlt : n < 2 ^ 31 - 1) (hfuel : 2 * n.toNat + 3 ≤ fuel) :
    ∃ T, outerTrace m fuel n initState = some T ∧
      T.map State.counters
        = ascendingStates n.toNat ++ descendingStates n.toNat ++ [(-1, -1)] ∧
      T.head?.map State.step = some 1 ∧
      (∀ s ∈ T, s.step = 1 ∨ s.step = -1) ∧
      (T.map State.i).count n = 1 ∧
      T[n.toNat]?.map State.counters = some (n, 1) ∧
      T[n.toNat + 1]?.map State.counters = some (n - 1, -1) ∧
      (∀ s ∈ T.take (n.toNat + 1), s.step = 1) ∧
      (∀ s ∈ T.drop (n.toNat + 1), s.step = -1) ∧
      T.Pairwise (fun a b => a.step = -1 → b.step = -1) := by
  have hm := fits_of_lt m n hlt
  obtain ⟨N, rfl⟩ := Int.eq_ofNat_of_zero_le hn
  simp only [Int.toNat_ofNat] at hfuel ⊢
  obtain ⟨T, hT, hc⟩ := outerTrace_run_fits m N hm fuel hfuel
  obtain ⟨h1, h2, h3, h4, h5, h6, h7, h8⟩ := counters_shape N _ hc
  refine ⟨T, hT, hc, ?_, ?_, ?_, ?_, ?_, ?_, ?_, ?_⟩
  · rw [List.head?_map] at h1
    have := congrArg (Option.map Prod.snd) h1
    simpa [Option.map_map, Function.comp_def, State.counters] using this
  · intro s hs
    exact h2 _ (List.mem_map_of_mem State.counters hs)
  · simpa [List.map_map, Function.comp_def, State.counters] using h3
  · rw [← List.getElem?_map]; exact h4
  · rw [← List.getElem?_map]; exact h5
  · intro s hs
    exact h6 _ (by rw [← List.map_take]; exact List.mem_map_of_mem State.counters hs)
  · intro s hs
    exact h7 _ (by rw [← List.map_drop]; exact List.mem_map_of_mem State.counters hs)
  · exact (List.pairwise_map.1 h8)

theorem C9_witness :
    (0 : Int) ≤ 2 ∧ (2 : Int) < 2 ^ 31 - 1 ∧ 2 * (2 : Int).toNat + 3 ≤ 7 ∧
    ∃ T, outerTrace .int32 7 2 initState = some T ∧
      T.map State.counters = [(0, 1), (1, 1), (2, 1), (1, -1), (0, -1), (-1, -1)] ∧
      T.head?.map State.step = some 1 ∧
      (∀ s ∈ T, s.step = 1 ∨ s.step = -1) ∧
      (T.map State.i).count 2 = 1 ∧
      T[2]?.map State.counters = some (2, 1) ∧
      T[3]?.map State.counters = some (1, -1) ∧
      (∀ s ∈ T.take 3, s.step = 1) ∧
      (∀ s ∈ T.drop 3, s.step = -1) ∧
      T.Pairwise (fun a b => a.step = -1 → b.step = -1) :=
  ⟨by decide, by decide, by decide,
    C9_step_flips_once .int32 2 7 (by decide) (by decide) (by decide)⟩

theorem bodyStates_getLast (N : Nat) :
    ((ascendingStates N ++ descendingStates N).getLast?).map Prod.fst = some 0 := by
  cases N with
  | zero => decide
  | succ K =>
    simp [descendingStates, List.range_succ_eq_map, List.getLast?_append]

/-- C10, as stated, fails: the bound `n = 2^31 - 1` is not negative, yet with the `int`
counters of the source the outer loop does not exit at all, for any fuel, so it does not
exit with `i = -1`. -/
theorem C10_counterexample :
    (0 : Int) ≤ 2 ^ 31 - 1 ∧
    (∀ fuel : Nat, outerLoop .int32 fuel (2 ^ 31 - 1) initState = none) ∧
    ¬ ∃ (fuel : Nat) (e : State),
        outerLoop .int32 fuel (2 ^ 31 - 1) initState = some e ∧ e.i = -1 := by
  have hnone : ∀ fuel : Nat, outerLoop .int32 fuel (2 ^ 31 - 1) initState = none :=
    fun fuel => outerLoop_int32_none fuel 0 "" (by omega) (by omega)
  refine ⟨by decide, hnone, ?_⟩
  rintro ⟨fuel, e, h, _⟩
  rw [hnone fuel] at h
  exact Option.noConfusion h

/-- C10, amended: for every bound `0 ≤ n < 2^31 - 1`, under either integer model, the
states in which the outer loop evaluates its condition are `2n + 1` states in which the
body runs, each with `0 ≤ i ≤ n`, then one state in which the loop exits; the last pass
of the body is made at `i = 0`, and the loop exits with `i = -1` (and `step = -1`), below
the range and not above it. -/
theorem C10_counter_range (m : IntModel) (n : Int) (fuel : Nat) (hn : 0 ≤ n)
    (hlt : n < 2 ^ 31 - 1) (hfuel : 2 * n.toNat + 3 ≤ fuel) :
    ∃ (B : List State) (e : State),
      outerTrace m fuel n initState = some (B ++ [e]) ∧
      outerLoop m fuel n initState = some e ∧
      B.length = 2 * n.toNat + 1 ∧
      (∀ s ∈ B, 0 ≤ s.i ∧ s.i ≤ n) ∧
      B.getLast?.map State.i = some 0 ∧
      e.i = -1 ∧ e.step = -1 ∧ ¬ (n < e.i) := by
  have hm := fits_of_lt m n hlt
  obtain ⟨N, rfl⟩ := Int.eq_ofNat_of_zero_le hn
  simp only [Int.toNat_ofNat] at hfuel ⊢
  obtain ⟨T, hT, hc⟩ := outerTrace_run_fits m N hm fuel hfuel
  obtain ⟨B, e, rfl, _, hB, _, hl⟩ := outerTrace_spec _ _ _ _ _ hT
  rw [List.map_append, List.map_singleton] at hc
  obtain ⟨hBc, hec⟩ := List.append_inj' hc rfl
  have hei : e.i = -1 := by
    simpa [State.counters] using congrArg Prod.fst (List.singleton_inj.1 hec)
  have hes : e.step = -1 := by
    simpa [State.counters] using congrArg Prod.snd (List.singleton_inj.1 hec)
  refine ⟨B, e, hT, hl, ?_, ?_, ?_, hei, hes, by rw [hei]; omega⟩
  · have := congrArg List.length hBc
    simp only [List.length_map, List.length_append, ascendingStates, descendingStates,
      List.length_range, List.length_reverse] at this
    omega
  · intro s hs
    have := hB s hs
    simpa [loopCond] using this
  · have := bodyStates_getLast N
    rw [← hBc, List.getLast?_map] at this
    simpa [Option.map_map, Function.comp_def, State.counters] using this

theorem C10_witness :
    (0 : Int) ≤ 2 ∧ (2 : Int) < 2 ^ 31 - 1 ∧ 2 * (2 : Int).toNat + 3 ≤ 7 ∧
    ∃ (B : List State) (e : State),
      outerTrace .int32 7 2 initState = some (B ++ [e]) ∧
      outerLoop .int32 7 2 initState = some e ∧
      B.length = 5 ∧
      (∀ s ∈ B, 0 ≤ s.i ∧ s.i ≤ 2) ∧
      B.getLast?.map State.i = some 0 ∧
      e.i = -1 ∧ e.step = -1 ∧ ¬ ((2 : Int) < e.i) :=
  ⟨by decide, by decide, by decide,
    C10_counter_range .int32 2 7 (by decide) (by decide) (by decide)⟩

/-- The counter values `0, ..., n, n-1, ..., 0` read the same in both directions. -/
theorem counterValues_reverse (N : Nat) :
    (ascending N ++ descending N).reverse = ascending N ++ descending N := by
  simp [ascending, descending, List.range_succ]

/-- C11, as stated, fails: the bound `n = 2^31 - 1` is not negative, yet with the `int`
counters of the source the program returns no output for any fuel, so there is no list
of output lines that is equal to its reverse. -/
theorem C11_counterexample :
    (0 : Int) ≤ 2 ^ 31 - 1 ∧
    (∀ fuel : Nat,
      (mainWith .int32 fuel (2 ^ 31 - 1)).map (fun r => textLines r.2) = none) ∧
    ¬ ∃ (fuel : Nat) (out : String),
        mainWith .int32 fuel (2 ^ 31 - 1) = some (EXIT_SUCCESS, out) ∧
        (textLines out).reverse = textLines out := by
  refine ⟨by decide, fun fuel => by rw [mainWith_int32_none fuel]; rfl, ?_⟩
  rintro ⟨fuel, out, h, _⟩
  rw [mainWith_int32_none fuel] at h
  exact Option.noConfusion h

/-- C11, amended: for every bound `0 ≤ n < 2^31 - 1`, under either integer model, the
list of the output lines is a palindrome: it is equal to its own reverse, so line `k`
from the start is line `k` from the end, and the line in the middle, line `n` counting
from zero, is the widest row, the one for `i = n`. -/
theorem C11_lines_palindrome (m : IntModel) (n : Int) (fuel : Nat) (hn : 0 ≤ n)
    (hlt : n < 2 ^ 31 - 1) (hfuel : 2 * n.toNat + 3 ≤ fuel) :
    ∃ out, mainWith m fuel n = some (EXIT_SUCCESS, out) ∧
      (textLines out).reverse = textLines out ∧
      (textLines out).length = 2 * n.toNat + 1 ∧
      (∀ k, k ≤ 2 * n.toNat → (textLines out)[k]? = (textLines out)[2 * n.toNat - k]?) ∧
      (textLines out)[n.toNat]? = some (rowLine n.toNat) := by
  have hm := fits_of_lt m n hlt
  obtain ⟨N, rfl⟩ := Int.eq_ofNat_of_zero_le hn
  simp only [Int.toNat_ofNat] at hfuel ⊢
  have hrev : (textLines (twoPhase N)).reverse = textLines (twoPhase N) := by
    rw [textLines_twoPhase, ← List.map_reverse, counterValues_reverse]
  have hlen : (textLines (twoPhase N)).length = 2 * N + 1 := by
    rw [textLines_twoPhase]
    simp [ascending, descending]
    omega
  refine ⟨twoPhase N, mainWith_eq m N hm fuel hfuel, hrev, hlen, ?_, ?_⟩
  · intro k hk
    have h := List.getElem?_reverse (l := textLines (twoPhase N)) (i := k) (by omega)
    rw [hrev, hlen] at h
    rw [h, Nat.add_sub_cancel]
  · rw [textLines_twoPhase, List.map_append,
      List.getElem?_append_left (by simp [ascending])]
    simp [ascending, List.getElem?_range]

theorem C11_witness :
    (0 : Int) ≤ 2 ∧ (2 : Int) < 2 ^ 31 - 1 ∧ 2 * (2 : Int).toNat + 3 ≤ 7 ∧
    ∃ out, mainWith .int32 7 2 = some (EXIT_SUCCESS, out) ∧
      (textLines out).reverse = textLines out ∧
      (textLines out).length = 5 ∧
      (∀ k, k ≤ 4 → (textLines out)[k]? = (textLines out)[4 - k]?) ∧
      (textLines out)[2]? = some " 0 1 2" :=
  ⟨by decide, by decide, by decide,
    C11_lines_palindrome .int32 2 7 (by decide) (by decide) (by decide)⟩

/-! ## Counting the numbers -/

/-- The inner loop entered with `j = a`, `a ≤ i + 1`, executes `printf` once for each of
the numbers `a, ..., i`. -/
theorem innerPrintfs_eq (m : IntModel) (i : Nat) (hm : m.fits i = true) (len : Nat) :
    ∀ (a fuel count : Nat), a + len = i + 1 → len + 1 ≤ fuel →
      innerPrintfs m fuel i a count = some (count + len) := by
  induction len with
  | zero =>
    intro a fuel count ha hf
    obtain ⟨f, rfl⟩ : ∃ f, fuel = f + 1 := ⟨fuel - 1, by omega⟩
    have : ¬ ((a : Int) ≤ i) := by omega
    simp [innerPrintfs, this]
  | succ len ih =>
    intro a fuel count ha hf
    obtain ⟨f, rfl⟩ : ∃ f, fuel = f + 1 := ⟨fuel - 1, by omega⟩
    have hle : (a : Int) ≤ i := by omega
    have hconv : m.conv ((a : Int) + 1) = ((a + 1 : Nat) : Int) := by
      rw [conv_of_fits hm _ (by omega) (by omega)]; simp
    simp only [innerPrintfs, hle, if_true, hconv]
    rw [ih (a + 1) f _ (by omega) (by omega)]
    congr 1
    omega

/-- The executions of `printf` over the descending phase entered at `i = k - 1`. -/
theorem outerPrintfs_descending (m : IntModel) (n : Int) (hm : m.fits n = true) (k : Nat) :
    ∀ (fuel : Nat) (out : String) (count : Nat), (k : Int) ≤ n → k + 2 ≤ fuel →
      outerPrintfs m fuel n ⟨(k : Int) - 1, -1, out⟩ count
        = some (count + ((descending k).map (· + 1)).sum) := by
  induction k with
  | zero =>
    intro fuel out count _ hf
    obtain ⟨f, rfl⟩ : ∃ f, fuel = f + 1 := ⟨fuel - 1, by omega⟩
    simp [outerPrintfs, loopCond, descending]
  | succ k ih =>
    intro fuel out count hk hf
    obtain ⟨f, rfl⟩ : ∃ f, fuel = f + 1 := ⟨fuel - 1, by omega⟩
    have hi : ((k + 1 : Nat) : Int) - 1 = (k : Int) := by simp
    have hc : loopCond n ⟨(k : Int), -1, out⟩ = true := by
      simp only [loopCond, Bool.and_eq_true, decide_eq_true_eq]; omega
    have hne : ¬ ((k : Int) = n) := by omega
    have hconv : m.conv ((k : Int) + -1) = (k : Int) - 1 := by
      rw [conv_of_fits hm _ (by omega) (by omega)]; ring
    have hin := innerPrintfs_eq m k (fits_mono hm (by omega)) (k + 1) 0 f count
      (by omega) (by omega)
    rw [hi]
    simp only [outerPrintfs, hc, if_true]
    rw [loopBody_eq m n k (-1) out f (fits_mono hm (by omega)) (by omega)]
    simp only [Nat.cast_zero] at hin
    simp only [hin, hne, if_false, hconv]
    rw [ih f _ _ (by omega) (by omega)]
    simp [descending, List.range_succ]
    omega

/-- The executions of `printf` from the ascending phase entered at `i` on. -/
theorem outerPrintfs_ascending (m : IntModel) (n : Nat) (hm : m.fits n = true) (d : Nat) :
    ∀ (i fuel : Nat) (out : String) (count : Nat), i + d = n → 2 * n + 3 ≤ fuel + i →
      outerPrintfs m fuel n ⟨i, 1, out⟩ count
        = some (count + ((List.range' i (d + 1)).map (· + 1)).sum
                  + ((descending n).map (· + 1)).sum) := by
  induction d with
  | zero =>
    intro i fuel out count hi hf
    obtain ⟨f, rfl⟩ : ∃ f, fuel = f + 1 := ⟨fuel - 1, by omega⟩
    obtain rfl : i = n := by omega
    have hc : loopCond (i : Int) ⟨(i : Int), 1, out⟩ = true := by
      simp [loopCond]
    have h1 : m.conv (0 - 1) = -1 := conv_of_fits hm _ (by omega) (by omega)
    have hconv : m.conv ((i : Int) + -1) = (i : Int) - 1 := by
      rw [conv_of_fits hm _ (by omega) (by omega)]; ring
    have hin := innerPrintfs_eq m i hm (i + 1) 0 f count (by omega) (by omega)
    simp only [outerPrintfs, hc, if_true]
    rw [loopBody_eq m i i 1 out f hm (by omega)]
    simp only [Nat.cast_zero] at hin
    simp only [hin, if_true, h1, hconv]
    rw [outerPrintfs_descending m i hm i f _ _ le_rfl (by omega)]
    simp [List.range']
  | succ d ih =>
    intro i fuel out count hi hf
    obtain ⟨f, rfl⟩ : ∃ f, fuel = f + 1 := ⟨fuel - 1, by omega⟩
    have hc : loopCond (n : Int) ⟨(i : Int), 1, out⟩ = true := by
      simp only [loopCond, Bool.and_eq_true, decide_eq_true_eq]; omega
    have hne : ¬ ((i : Int) = (n : Int)) := by omega
    have hconv : m.conv ((i : Int) + 1) = ((i + 1 : Nat) : Int) := by
      rw [conv_of_fits hm _ (by omega) (by omega)]; simp
    have hin := innerPrintfs_eq m i (fits_mono hm (by omega)) (i + 1) 0 f count
      (by omega) (by omega)
    simp only [outerPrintfs, hc, if_true]
    rw [loopBody_eq m n i 1 out f (fits_mono hm (by omega)) (by omega)]
    simp only [Nat.cast_zero] at hin
    simp only [hin, hne, if_false, hconv]
    rw [ih (i + 1) f _ _ (by omega) (by omega)]
    simp [List.range']
    omega

/-- The numbers `1, ..., n+1` and `n, ..., 1` add up to `(n+1)^2`. -/
theorem triangle_sum (n : Nat) :
    ((ascending n).map (· + 1)).sum + ((descending n).map (· + 1)).sum = (n + 1) ^ 2 := by
  induction n with
  | zero => decide
  | succ n ih =>
    simp only [ascending, descending] at ih ⊢
    rw [List.range_succ (n := n + 1), List.range_succ (n := n)]
    rw [List.range_succ (n := n)] at ih
    simp only [List.map_append, List.sum_append, List.map_cons, List.map_nil,
      List.sum_cons, List.sum_nil, List.reverse_append, List.reverse_cons,
      List.reverse_nil, List.nil_append, List.singleton_append, List.map_reverse,
      List.sum_reverse] at ih ⊢
    nlinarith

/-- The number of executions of `printf(" %d", j)` in a run with bound `n ≥ 0`. -/
theorem mainPrintfs_eq (m : IntModel) (n : Nat) (hm : m.fits n = true) (fuel : Nat)
    (hf : 2 * n + 3 ≤ fuel) :
    mainPrintfs m fuel n = some ((n + 1) ^ 2) := by
  have h := outerPrintfs_ascending m n hm n 0 fuel "" 0 (by omega) (by omega)
  simp only [mainPrintfs, initState, Nat.cast_zero] at h ⊢
  rw [h, ← triangle_sum n]
  simp [ascending, List.range_eq_range']

theorem rowLengths_twoPhase_sum (n : Nat) : (rowLengths (twoPhase n)).sum = (n + 1) ^ 2 := by
  have h : rowLengths (twoPhase n) = (ascending n ++ descending n).map (· + 1) := by
    simp only [rowLengths, textLines_twoPhase, List.map_map, Function.comp_def,
      lineFields_rowLine, List.length_map, List.length_range]
  rw [h, List.map_append, List.sum_append, triangle_sum]

/-- C12, as stated, fails: the bound `n = 2^31 - 1` is not negative, yet with the `int`
counters of the source the run does not end, so the count of the executions of the inner
`printf` is returned for no fuel: it is not `(n+1)^2`, and no output is returned whose
row lengths could add up to that. -/
theorem C12_counterexample :
    (0 : Int) ≤ 2 ^ 31 - 1 ∧
    (∀ fuel : Nat, mainPrintfs .int32 fuel (2 ^ 31 - 1) = none) ∧
    (∀ fuel : Nat,
      mainPrintfs .int32 fuel (2 ^ 31 - 1) ≠ some ((((2 : Int) ^ 31 - 1).toNat + 1) ^ 2)) ∧
    (∀ fuel : Nat,
      (mainWith .int32 fuel (2 ^ 31 - 1)).map (fun r => (rowLengths r.2).sum) = none) := by
  refine ⟨by decide, fun fuel => mainPrintfs_int32_none fuel, fun fuel => ?_,
    fun fuel => by rw [mainWith_int32_none fuel]; rfl⟩
  rw [mainPrintfs_int32_none fuel]
  exact fun h => Option.noConfusion h

/-- C12, amended: for every bound `0 ≤ n < 2^31 - 1`, under either integer model, the
inner `printf(" %d", j)` is executed exactly `(n+1)^2` times over the whole run, and the
output holds that many numbers: the row lengths of the output add up to `(n+1)^2`. -/
theorem C12_total_numbers (m : IntModel) (n : Int) (fuel : Nat) (hn : 0 ≤ n)
    (hlt : n < 2 ^ 31 - 1) (hfuel : 2 * n.toNat + 3 ≤ fuel) :
    mainPrintfs m fuel n = some ((n.toNat + 1) ^ 2) ∧
    ∃ out, mainWith m fuel n = some (EXIT_SUCCESS, out) ∧
      (rowLengths out).sum = (n.toNat + 1) ^ 2 := by
  have hm := fits_of_lt m n hlt
  obtain ⟨N, rfl⟩ := Int.eq_ofNat_of_zero_le hn
  simp only [Int.toNat_ofNat] at hfuel ⊢
  exact ⟨mainPrintfs_eq m N hm fuel hfuel, twoPhase N,
    mainWith_eq m N hm fuel hfuel, rowLengths_twoPhase_sum N⟩

theorem C12_witness :
    (0 : Int) ≤ 2 ∧ (2 : Int) < 2 ^ 31 - 1 ∧ 2 * (2 : Int).toNat + 3 ≤ 7 ∧
    (mainPrintfs .int32 7 2 = some 9 ∧
     ∃ out, mainWith .int32 7 2 = some (EXIT_SUCCESS, out) ∧
      (rowLengths out).sum = 9) :=
  ⟨by decide, by decide, by decide,
    C12_total_numbers .int32 2 7 (by decide) (by decide) (by decide)⟩

/-- The counter `i` stays between `-1` and `n` over the whole run. -/
theorem counters_range (N : Nat) :
    ∀ p ∈ ascendingStates N ++ descendingStates N ++ [(-1, -1)],
      (-1 : Int) ≤ p.1 ∧ p.1 ≤ (N : Int) := by
  intro p hp
  rw [List.append_assoc] at hp
  rcases List.mem_append.1 hp with hp | hp
  · obtain ⟨k, hk, rfl⟩ := List.mem_map.1 hp
    simp only [List.mem_range] at hk
    constructor <;> simp only <;> omega
  · rcases List.mem_append.1 hp with hp | hp
    · obtain ⟨k, hk, rfl⟩ := List.mem_map.1 hp
      simp only [List.mem_reverse, List.mem_range] at hk
      constructor <;> simp only <;> omega
    · simp only [List.mem_singleton] at hp
      rw [hp]
      constructor <;> simp only <;> omega

/-- A pass made from a counter value `0 ≤ i ≤ n` with `step` equal to `1` or `-1` is the
same with 32 bits as with mathematical integers when `n + 1 < 2^31`. -/
theorem loopBody_int32 (n : Nat) (hn : (n : Int) + 1 < 2 ^ 31) (i : Nat) (hi : i ≤ n)
    (step : Int) (hs : step = 1 ∨ step = -1) (out : String) (fuel : Nat)
    (hf : i + 2 ≤ fuel) :
    loopBody .int32 fuel n ⟨i, step, out⟩ = loopBody .unbounded fuel n ⟨i, step, out⟩ := by
  have hm : IntModel.int32.fits (n : Int) = true := by
    simp only [IntModel.fits, decide_eq_true_eq]; exact hn
  rw [loopBody_eq .int32 n i step out fuel (fits_mono hm (by omega)) hf,
    loopBody_eq .unbounded n i step out fuel rfl hf]
  have h1 : IntModel.int32.conv (0 - 1) = -1 := conv_of_fits hm _ (by omega) (by omega)
  by_cases hin : (i : Int) = (n : Int)
  · simp only [hin, if_true, h1]
    rw [conv_of_fits hm _ (by omega) (by omega)]
    rfl
  · simp only [hin, if_false]
    rcases hs with rfl | rfl
    · rw [conv_of_fits hm _ (by omega) (by omega)]; rfl
    · rw [conv_of_fits hm _ (by omega) (by omega)]; rfl

/-- The values of `j` in the row for `i`, under a model that fits `i`. -/
theorem innerTrace_row (m : IntModel) (i : Nat) (hm : m.fits i = true) (fuel : Nat)
    (hf : i + 2 ≤ fuel) :
    innerTrace m fuel i 0 = some ((List.range (i + 2)).map fun (k : Nat) => (k : Int)) := by
  have h := innerTrace_eq m i hm (i + 1) 0 fuel (by omega) (by omega)
  rw [List.range_eq_range']
  exact h

/-- C13: with 32-bit counters and a bound `0 ≤ n < 2^31 - 1` no counter update
overflows.  The 32-bit run returns what the run with mathematical integers returns and
goes through the same pairs `(i, step)`; every value of `i` lies in `[-1, n]`; from every
state in which the body runs, the 32-bit pass is the pass with mathematical integers,
and the values of `j` in that row are the same under both models and lie in `[0, i+1]`,
so at most `n + 1 ≤ 2^31 - 1`; every value from `-1` to `n + 1` is stored unchanged.
The bound is tight: for `n = 2^31 - 1` the run with mathematical integers reaches the
row for `i = n`, where `j` takes the value `2^31 - 1`, is incremented, and takes the value
`2^31`; with 32 bits that increment gives `-2^31`, and the 32-bit program never returns,
whereas the program with mathematical integers does. -/
theorem C13_int32_agrees_below_bound (n : Int) (fuel : Nat) (hn : 0 ≤ n)
    (hlt : n < 2 ^ 31 - 1) (hfuel : 2 * n.toNat + 3 ≤ fuel) :
    (mainWith .int32 fuel n = mainWith .unbounded fuel n ∧
      ∃ out, mainWith .int32 fuel n = some (EXIT_SUCCESS, out)) ∧
    (∃ T, outerTrace .int32 fuel n initState = some T ∧
      (outerTrace .unbounded fuel n initState).map (List.map State.counters)
        = some (T.map State.counters) ∧
      (∀ s ∈ T, -1 ≤ s.i ∧ s.i ≤ n) ∧
      (∀ s ∈ T, loopCond n s = true →
        loopBody .int32 fuel n s = loopBody .unbounded fuel n s ∧
        ∃ J, innerTrace .int32 fuel s.i 0 = some J ∧
          innerTrace .unbounded fuel s.i 0 = some J ∧
          ∀ j ∈ J, 0 ≤ j ∧ j ≤ s.i + 1 ∧ j ≤ n + 1 ∧ j ≤ 2 ^ 31 - 1)) ∧
    (∀ x : Int, -1 ≤ x → x ≤ n + 1 → wrap32 x = x) ∧
    (∀ fuel' : Nat, 2 ^ 32 + 1 ≤ fuel' →
      (∃ out, mainWith .unbounded fuel' (2 ^ 31 - 1) = some (EXIT_SUCCESS, out)) ∧
      (∃ T, outerTrace .unbounded fuel' (2 ^ 31 - 1) initState = some T ∧
        ((2 : Int) ^ 31 - 1, (1 : Int)) ∈ T.map State.counters) ∧
      (∃ J, innerTrace .unbounded fuel' (2 ^ 31 - 1) 0 = some J ∧
        (2 : Int) ^ 31 - 1 ∈ J ∧ (2 : Int) ^ 31 ∈ J)) ∧
    wrap32 ((2 ^ 31 - 1) + 1) = -2 ^ 31 ∧
    (∀ fuel' : Nat, mainWith .int32 fuel' (2 ^ 31 - 1) = none) := by
  obtain ⟨N, rfl⟩ := Int.eq_ofNat_of_zero_le hn
  simp only [Int.toNat_ofNat] at hfuel ⊢
  have hN : (N : Int) + 1 < 2 ^ 31 := by omega
  have hm : IntModel.int32.fits (N : Int) = true := by
    simp only [IntModel.fits, decide_eq_true_eq]; exact hN
  refine ⟨⟨?_, twoPhase N, mainWith_eq .int32 N hm fuel hfuel⟩, ?_,
    fun x h1 h2 => conv_of_fits hm x h1 h2, ?_, by decide,
    fun fuel' => mainWith_int32_none fuel'⟩
  · rw [mainWith_eq .int32 N hm fuel hfuel, mainWith_eq .unbounded N rfl fuel hfuel]
  · have h32 := outerTrace_counters .int32 N hm fuel hfuel
    cases ht : outerTrace .int32 fuel N initState with
    | none => simp [ht] at h32
    | some T =>
      have hc : T.map State.counters
          = ascendingStates N ++ descendingStates N ++ [(-1, -1)] := by
        simpa [ht] using h32
      refine ⟨T, rfl, ?_, ?_, ?_⟩
      · rw [outerTrace_counters .unbounded N rfl fuel hfuel, hc]
      · intro s hs
        have := counters_range N _ (hc ▸ List.mem_map_of_mem State.counters hs)
        simpa [State.counters] using this
      · intro s hs hcond
        obtain ⟨i, step, out⟩ := s
        have hstep : step = 1 ∨ step = -1 :=
          (counters_shape N _ hc).2.1 _ (List.mem_map_of_mem State.counters hs)
        have hi : 0 ≤ i ∧ i ≤ (N : Int) := by
          simpa [loopCond] using hcond
        obtain ⟨I, rfl⟩ := Int.eq_ofNat_of_zero_le hi.1
        have hIN : I ≤ N := by omega
        refine ⟨loopBody_int32 N hN I hIN step hstep out fuel (by omega), _,
          innerTrace_row .int32 I (fits_mono hm (by omega)) fuel (by omega),
          innerTrace_row .unbounded I rfl fuel (by omega), ?_⟩
        show ∀ j ∈ _, 0 ≤ j ∧ j ≤ (I : Int) + 1 ∧ j ≤ (N : Int) + 1 ∧ j ≤ 2 ^ 31 - 1
        intro j hj
        obtain ⟨k, hk, rfl⟩ := List.mem_map.1 hj
        simp only [List.mem_range] at hk
        refine ⟨?_, ?_, ?_, ?_⟩ <;> omega
  · intro fuel' hf'
    have e : ((2147483647 : Nat) : Int) = 2 ^ 31 - 1 := by norm_num
    have hf2 : 2 * 2147483647 + 3 ≤ fuel' := by omega
    refine ⟨⟨twoPhase 2147483647, ?_⟩, ?_, ?_⟩
    · have := mainWith_eq .unbounded 2147483647 rfl fuel' hf2
      rw [e] at this
      exact this
    · obtain ⟨T, hT, hc⟩ := outerTrace_run 2147483647 fuel' hf2
      rw [e] at hT
      refine ⟨T, hT, ?_⟩
      rw [hc, ← e]
      exact List.mem_append_left _ (List.mem_append_left _
        (List.mem_map.2 ⟨2147483647, List.mem_range.2 (by omega), rfl⟩))
    · have := innerTrace_row .unbounded 2147483647 rfl fuel' (by omega)
      rw [e] at this
      refine ⟨_, this, ?_, ?_⟩
      · exact List.mem_map.2 ⟨2147483647, List.mem_range.2 (by omega), e⟩
      · exact List.mem_map.2 ⟨2147483648, List.mem_range.2 (by omega), by norm_num⟩

theorem C13_witness :
    (0 : Int) ≤ 2 ∧ (2 : Int) < 2 ^ 31 - 1 ∧ 2 * (2 : Int).toNat + 3 ≤ 7 ∧
    ((mainWith .int32 7 2 = mainWith .unbounded 7 2 ∧
      ∃ out, mainWith .int32 7 2 = some (EXIT_SUCCESS, out)) ∧
    (∃ T, outerTrace .int32 7 2 initState = some T ∧
      (outerTrace .unbounded 7 2 initState).map (List.map State.counters)
        = some (T.map State.counters) ∧
      (∀ s ∈ T, -1 ≤ s.i ∧ s.i ≤ 2) ∧
      (∀ s ∈ T, loopCond 2 s = true →
        loopBody .int32 7 2 s = loopBody .unbounded 7 2 s ∧
        ∃ J, innerTrace .int32 7 s.i 0 = some J ∧
          innerTrace .unbounded 7 s.i 0 = some J ∧
          ∀ j ∈ J, 0 ≤ j ∧ j ≤ s.i + 1 ∧ j ≤ 2 + 1 ∧ j ≤ 2 ^ 31 - 1)) ∧
    (∀ x : Int, -1 ≤ x → x ≤ 2 + 1 → wrap32 x = x) ∧
    (∀ fuel' : Nat, 2 ^ 32 + 1 ≤ fuel' →
      (∃ out, mainWith .unbounded fuel' (2 ^ 31 - 1) = some (EXIT_SUCCESS, out)) ∧
      (∃ T, outerTrace .unbounded fuel' (2 ^ 31 - 1) initState = some T ∧
        ((2 : Int) ^ 31 - 1, (1 : Int)) ∈ T.map State.counters) ∧
      (∃ J, innerTrace .unbounded fuel' (2 ^ 31 - 1) 0 = some J ∧
        (2 : Int) ^ 31 - 1 ∈ J ∧ (2 : Int) ^ 31 ∈ J)) ∧
    wrap32 ((2 ^ 31 - 1) + 1) = -2 ^ 31 ∧
    (∀ fuel' : Nat, mainWith .int32 fuel' (2 ^ 31 - 1) = none)) :=
  ⟨by decide, by decide, by decide,
    C13_int32_agrees_below_bound 2 7 (by decide) (by decide) (by decide)⟩

end BasicExample
